import Mathlib

/-!
# memcache meta-flag codec (`meta_flags.go`)

A shallow embedding of the flag builder (`buildMetaFlags`, the `with*`
constructors) and of the response-flag parser (`obtainMetaFlagsResults`),
together with the parts of Go's `strings`, `strconv` and `fmt` packages they call.

Conventions of the embedding:

* a Go `string` is the list of its bytes; a byte is written as the `Char` of the
  same code, so that `"t30".toList` is the token `t30`;
* `uint32`/`uint64` values are `Nat`, `int64` values are `Int`; wrap-around is
  written explicitly (`% 2^64`, `wrapInt64`);
* a run-time panic (index out of range) is the result `none`.
-/

namespace MetaFlags

/-- A Go string: the list of its bytes. -/
abbrev GoString := List Char

/-! ## `strings.Join` -/

/-- Go `strings.Join`: no element gives the empty string, one element is returned as it
is, otherwise the first element is written and then, for every further element, the
separator followed by the element. -/
def Join (elems : List GoString) (sep : GoString) : GoString :=
  match elems with
  | [] => []
  | [e] => e
  | e :: rest => rest.foldl (fun b s => b ++ sep ++ s) e

/-! ## `strconv`: errors -/

/-- The two sentinel errors of `strconv`: `ErrSyntax` and `ErrRange`. -/
inductive NumErrKind
  | ErrSyntax
  | ErrRange
  deriving DecidableEq, Repr

/-- Go `strconv.NumError`: the failing function, the input text, the reason. -/
structure NumError where
  Func : String
  Num : GoString
  Err : NumErrKind
  deriving DecidableEq, Repr

/-- A Go `error` value as produced in this file: a `*strconv.NumError`, or the value
returned by `fmt.Errorf`, which carries its message text. -/
inductive GoError
  | num (e : NumError)
  | errorString (msg : String)
  deriving DecidableEq, Repr

/-- Go `strconv.syntaxError`. -/
def syntaxError (fn : String) (str : GoString) : NumError := ⟨fn, str, .ErrSyntax⟩

/-- Go `strconv.rangeError`. -/
def rangeError (fn : String) (str : GoString) : NumError := ⟨fn, str, .ErrRange⟩

/-! ## `strconv.ParseUint` and `strconv.ParseInt`, base 10 -/

/-- Largest `uint64`. -/
def maxUint64 : Nat := 2 ^ 64 - 1

/-- Go `strconv.lower`: `c | ('x' - 'X')`. -/
def lower (c : Char) : Nat := c.toNat ||| 32

/-- The digit value `ParseUint` assigns to a byte: `c - '0'` for `'0'..'9'`,
`lower(c) - 'a' + 10` for a letter, nothing for any other byte. -/
def digitVal (c : Char) : Option Nat :=
  if '0'.toNat ≤ c.toNat ∧ c.toNat ≤ '9'.toNat then some (c.toNat - '0'.toNat)
  else if 'a'.toNat ≤ lower c ∧ lower c ≤ 'z'.toNat then some (lower c - 'a'.toNat + 10)
  else none

/-- The `cutoff` of `ParseUint` for base 10: the smallest number such that
`cutoff * 10 > maxUint64`. -/
def cutoff10 : Nat := maxUint64 / 10 + 1

/-- The digit loop of `strconv.ParseUint` for base 10. `s0` is the whole input (kept for
the error value), `maxVal` is `1<<bitSize - 1`, `n` the value accumulated so far.
The products and sums are `uint64` operations. -/
def parseUintLoop (s0 : GoString) (maxVal : Nat) : List Char → Nat → Nat × Option NumError
  | [], n => (n, none)
  | c :: cs, n =>
    match digitVal c with
    | none => (0, some (syntaxError "ParseUint" s0))
    | some d =>
      if d ≥ 10 then (0, some (syntaxError "ParseUint" s0))
      else if n ≥ cutoff10 then (maxVal, some (rangeError "ParseUint" s0))
      else
        let n10 := (n * 10) % 2 ^ 64
        let n1 := (n10 + d) % 2 ^ 64
        if n1 < n10 ∨ n1 > maxVal then (maxVal, some (rangeError "ParseUint" s0))
        else parseUintLoop s0 maxVal cs n1

/-- Go `strconv.ParseUint(s, 10, bitSize)` for `bitSize` 32 or 64 (the two widths the
parser asks for): the empty string is a syntax error, otherwise the digit loop runs. -/
def ParseUint (s : GoString) (bitSize : Nat) : Nat × Option NumError :=
  if s = [] then (0, some (syntaxError "ParseUint" s))
  else parseUintLoop s (2 ^ bitSize - 1) s 0

/-- Conversion to `int64` with wrap-around (two's complement). -/
def wrapInt64 (i : Int) : Int := (i + 2 ^ 63) % 2 ^ 64 - 2 ^ 63

/-- Go `strconv.ParseInt(s, 10, bitSize)`: a leading `+` or `-` is picked off, the rest
goes through `ParseUint`; a syntax error is re-labelled and returned with value 0,
otherwise the magnitude is checked against `1 << (bitSize-1)`. -/
def ParseInt (s : GoString) (bitSize : Nat) : Int × Option NumError :=
  match s with
  | [] => (0, some (syntaxError "ParseInt" s))
  | c :: rest =>
    let neg : Bool := decide (c ≠ '+') && decide (c = '-')
    let s1 : GoString := if c = '+' then rest else if c = '-' then rest else s
    match ParseUint s1 bitSize with
    | (un, err) =>
      if (match err with
          | some e => decide (e.Err ≠ NumErrKind.ErrRange)
          | none => false) then (0, some (syntaxError "ParseInt" s))
      else
        let cutoff : Nat := 2 ^ (bitSize - 1)
        if !neg && decide (un ≥ cutoff) then
          (wrapInt64 (cutoff - 1 : Nat), some (rangeError "ParseInt" s))
        else if neg && decide (un > cutoff) then
          (wrapInt64 (-(wrapInt64 cutoff)), some (rangeError "ParseInt" s))
        else
          let n : Int := wrapInt64 un
          (if neg then wrapInt64 (-n) else n, none)

/-! ## `strconv.FormatUint` and `strconv.FormatInt`, base 10 -/

/-- Go `strconv.smallsString`: the two-digit texts of 0..99, one after the other. -/
def smallsString : GoString :=
  ("00010203040506070809" ++
   "10111213141516171819" ++
   "20212223242526272829" ++
   "30313233343536373839" ++
   "40414243444546474849" ++
   "50515253545556575859" ++
   "60616263646566676869" ++
   "70717273747576777879" ++
   "80818283848586878889" ++
   "90919293949596979899").toList

/-- Go `strconv.digits`. -/
def digits : GoString := "0123456789abcdefghijklmnopqrstuvwxyz".toList

/-- Go `strconv.small`, the text of an integer below 100. -/
def small (i : Nat) : GoString :=
  if i < 10 then (digits.drop i).take 1
  else (smallsString.drop (i * 2)).take 2

/-- The end of the base-10 branch of `strconv.formatBits`, reached with `us < 100`: the
last digit is written, and the one before it when `us >= 10`. `a` is the part of
the buffer already written (the buffer is filled from its end). -/
def formatBitsTail (us : Nat) (a : List Char) : List Char :=
  let a1 := smallsString.getD (us * 2 + 1) '0' :: a
  if us ≥ 10 then smallsString.getD (us * 2) '0' :: a1 else a1

/-- The base-10 loop `for us >= 100` of `strconv.formatBits`, two digits at a time,
followed by `formatBitsTail`. The first argument bounds the number of passes; every
pass divides `us` by 100, so `us` itself is enough and is what `formatBits` gives. -/
def formatBitsLoop : Nat → Nat → List Char → List Char
  | 0, us, a => formatBitsTail us a
  | fuel + 1, us, a =>
    if us ≥ 100 then
      formatBitsLoop fuel (us / 100)
        (smallsString.getD (us % 100 * 2) '0' :: smallsString.getD (us % 100 * 2 + 1) '0' :: a)
    else formatBitsTail us a

/-- Go `strconv.formatBits(nil, u, 10, neg, false)`: with `neg` the value is negated
(as `uint64`), the digits are written, and the sign is put in front. -/
def formatBits (u : Nat) (neg : Bool) : GoString :=
  let u1 := if neg then (2 ^ 64 - u) % 2 ^ 64 else u
  let a := formatBitsLoop u1 u1 []
  if neg then '-' :: a else a

/-- Go `strconv.FormatUint(i, 10)`. -/
def FormatUint (i : Nat) : GoString :=
  if i < 100 then small i else formatBits i false

/-- Go `strconv.FormatInt(i, 10)`; `uint64(i)` is `i` modulo `2^64`. -/
def FormatInt (i : Int) : GoString :=
  if 0 ≤ i ∧ i < 100 then small i.toNat else formatBits (i % 2 ^ 64).toNat (decide (i < 0))

/-! ## The builder -/

/-- Source `metaFlag`: `k` is the key, `i` the input (argument). It is the only
implementation of the interface `metaFlager`. -/
structure metaFlag where
  k : GoString
  i : GoString := []
  deriving DecidableEq, Repr

/-- Source `metaFlag.build`: `append(of, f.k+f.i)`. -/
def metaFlag.build (f : metaFlag) (of : List GoString) : List GoString :=
  of ++ [f.k ++ f.i]

/-- Source `buildMetaFlags`: every directive appends its token to `ss`, in order; the
tokens are joined with one space. -/
def buildMetaFlags (fs : List metaFlag) : GoString :=
  Join (fs.foldl (fun ss f => f.build ss) []) " ".toList

/-- Source `withBinary`. -/
def withBinary : metaFlag := { k := "b".toList }
/-- Source `withCAS`. -/
def withCAS : metaFlag := { k := "c".toList }
/-- Source `withFlag`. -/
def withFlag : metaFlag := { k := "f".toList }
/-- Source `withHit`. -/
def withHit : metaFlag := { k := "h".toList }
/-- Source `withLastAccess`. -/
def withLastAccess : metaFlag := { k := "l".toList }
/-- Source `withOpaque`. -/
def withOpaque (token : GoString) : metaFlag := { k := "O".toList, i := token }
/-- Source `withQuiet`. -/
def withQuiet : metaFlag := { k := "q".toList }
/-- Source `withSize`. -/
def withSize : metaFlag := { k := "s".toList }
/-- Source `withTTL`. -/
def withTTL : metaFlag := { k := "t".toList }
/-- Source `withNoBump`. -/
def withNoBump : metaFlag := { k := "u".toList }
/-- Source `withValue`. -/
def withValue : metaFlag := { k := "v".toList }
/-- Source `withVivify`. -/
def withVivify (token : Nat) : metaFlag := { k := "N".toList, i := FormatUint token }
/-- Source `withRecache`. -/
def withRecache (token : Nat) : metaFlag := { k := "R".toList, i := FormatUint token }
/-- Source `withSetTTL`. -/
def withSetTTL (token : Nat) : metaFlag := { k := "T".toList, i := FormatUint token }
/-- Source `withCompareCAS`. -/
def withCompareCAS (token : Int) : metaFlag := { k := "C".toList, i := FormatInt token }
/-- Source `withSetFlag`: `uint64(token)` of a `uint32` is the same number. -/
def withSetFlag (token : Nat) : metaFlag := { k := "F".toList, i := FormatUint token }
/-- Source `withSetInvalid`. -/
def withSetInvalid : metaFlag := { k := "I".toList }
/-- Source `withMode`. -/
def withMode (token : GoString) : metaFlag := { k := "M".toList, i := token }
/-- Source `withInitialValue`. -/
def withInitialValue (token : Nat) : metaFlag := { k := "J".toList, i := FormatUint token }
/-- Source `withDelta`. -/
def withDelta (token : Nat) : metaFlag := { k := "D".toList, i := FormatUint token }

/-! ## The parser -/

/-- Modelled from the spec: the field `CasToken` of `MetaResult`, whose type is declared
outside `meta_flags.go`: a signed 64-bit value with an explicit presence marker
(`value` and `setted` are the names the parser assigns to). -/
structure casToken where
  value : Int := 0
  setted : Bool := false
  deriving DecidableEq, Repr

/-- Modelled from the spec: the record `MetaResult`, whose declaration is outside
`meta_flags.go`. The fields are the ones the parser assigns: `Won`, `Stale` (bool),
`Key`, `Opaque` (string), `CasToken`, `Flags` (uint32), `Hit` (bool), `LastAccess`,
`Size`, `TTL` (uint64). The default value is Go's zero value. -/
structure MetaResult where
  Won : Bool := false
  Stale : Bool := false
  Key : GoString := []
  Opaque : GoString := []
  CasToken : casToken := {}
  Flags : Nat := 0
  Hit : Bool := false
  LastAccess : Nat := 0
  Size : Nat := 0
  TTL : Nat := 0
  deriving DecidableEq, Repr

/-- What one pass through the body of the `for` loop does: go on with the next token,
leave the function through `return mr, err`, or panic on an index out of range. -/
inductive Flow
  | next (mr : MetaResult) (err : Option GoError)
  | ret (mr : MetaResult) (err : Option GoError)
  | panic
  deriving DecidableEq, Repr

/-- Go `fmt.Errorf("Invalid flag: %c", k)` for a byte `k`: the verb `%c` writes the
character whose code point is `k`. -/
def invalidFlag (k : Char) : GoError := .errorString ("Invalid flag: ".push k)

/-- The body of the loop of `obtainMetaFlagsResults` for the token `f`, with `mr`
and `err` the named results as they stand. `f[0]` panics on the empty token and
`v[0]` on an empty argument. In case `'f'` the names `v, err` are declared anew, so
the outer `err` is left alone and the failure leaves through `return`. -/
def obtainStep (f : GoString) (mr : MetaResult) (err : Option GoError) : Flow :=
  match f with
  | [] => .panic
  | k :: v =>
    if k = 'W' then .next { mr with Won := true } err
    else if k = 'Z' then .next { mr with Won := false } err
    else if k = 'X' then .next { mr with Stale := true } err
    else if k = 'k' then .next { mr with Key := v } err
    else if k = 'O' then .next { mr with Opaque := v } err
    else if k = 'c' then
      .next { mr with CasToken := { value := (ParseInt v 64).1, setted := true } }
        ((ParseInt v 64).2.map GoError.num)
    else if k = 'f' then
      match (ParseUint v 32).2 with
      | some e => .ret mr (some (GoError.num e))
      | none => .next { mr with Flags := (ParseUint v 32).1 % 2 ^ 32 } err
    else if k = 'h' then
      match v with
      | [] => .panic
      | v0 :: _ => .next { mr with Hit := decide (v0 = '1') } err
    else if k = 'l' then
      .next { mr with LastAccess := (ParseUint v 64).1 } ((ParseUint v 64).2.map GoError.num)
    else if k = 's' then
      .next { mr with Size := (ParseUint v 64).1 } ((ParseUint v 64).2.map GoError.num)
    else if k = 't' then
      .next { mr with TTL := (ParseUint v 64).1 } ((ParseUint v 64).2.map GoError.num)
    else .next mr (some (invalidFlag k))

/-- The loop of `obtainMetaFlagsResults` from the state `(mr, err)` over the tokens
still to come; at the end of the list the function returns the named results. -/
def obtainLoop : List GoString → MetaResult → Option GoError →
    Option (MetaResult × Option GoError)
  | [], mr, err => some (mr, err)
  | f :: rest, mr, err =>
    match obtainStep f mr err with
    | .next mr1 err1 => obtainLoop rest mr1 err1
    | .ret mr1 err1 => some (mr1, err1)
    | .panic => none

/-- Source `obtainMetaFlagsResults`: the loop started from the zero record and the nil
error. `none` is a panic, `some (mr, err)` the returned pair. -/
def obtainMetaFlagsResults (ss : List GoString) : Option (MetaResult × Option GoError) :=
  obtainLoop ss {} none

/-! ## Vocabulary of the specification -/

/-- The number a digit string denotes in base 10, most significant digit first, when
reading goes on from the value `n`. -/
def valueFrom (n : Nat) (a : GoString) : Nat :=
  a.foldl (fun m c => 10 * m + (c.toNat - 48)) n

/-- The base-10 value of a digit string. -/
def decimalValue (a : GoString) : Nat := valueFrom 0 a

/-- A valid unsigned base-10 argument of width `w`: a non-empty string of decimal
digits whose value is at most `2^w - 1`. -/
def validUint (w : Nat) (a : GoString) : Prop :=
  a ≠ [] ∧ a.all Char.isDigit = true ∧ decimalValue a ≤ 2 ^ w - 1

/-- The integer an optionally signed, non-empty digit string denotes; nothing for any
other text. -/
def signedDecimal (a : GoString) : Option Int :=
  match a with
  | [] => none
  | c :: d =>
    if c = '+' then
      if d ≠ [] ∧ d.all Char.isDigit = true then some (decimalValue d : Int) else none
    else if c = '-' then
      if d ≠ [] ∧ d.all Char.isDigit = true then some (-(decimalValue d : Int)) else none
    else if (c :: d).all Char.isDigit = true then some (decimalValue (c :: d) : Int)
    else none

/-- A valid signed 64-bit base-10 argument: an optionally signed non-empty digit string
whose value lies in `[-2^63, 2^63 - 1]`. -/
def validInt64 (a : GoString) : Prop :=
  match signedDecimal a with
  | some v => -2 ^ 63 ≤ v ∧ v ≤ 2 ^ 63 - 1
  | none => False

/-- The key characters the parser recognizes. -/
def knownKey (k : Char) : Prop :=
  k = 'W' ∨ k = 'Z' ∨ k = 'X' ∨ k = 'k' ∨ k = 'O' ∨ k = 'c' ∨ k = 'f' ∨ k = 'h' ∨
    k = 'l' ∨ k = 's' ∨ k = 't'

/-- A well-formed response token: non-empty, with a recognized key, a valid base-10
argument of the field's width for `c`, `f`, `l`, `s`, `t`, and at least one argument
character for `h`. -/
def WellFormedToken (f : GoString) : Prop :=
  match f with
  | [] => False
  | k :: a =>
    if k = 'c' then validInt64 a
    else if k = 'f' then validUint 32 a
    else if k = 'l' ∨ k = 's' ∨ k = 't' then validUint 64 a
    else if k = 'h' then a ≠ []
    else k = 'W' ∨ k = 'Z' ∨ k = 'X' ∨ k = 'k' ∨ k = 'O'

/-- The argument of the last token of the list whose key is `k`, if there is one. -/
def lastArg (k : Char) (ss : List GoString) : Option GoString :=
  ((ss.filter (fun f => decide (f.head? = some k))).getLast?).map List.tail

/-- The key of the last token of the list whose key is `W` or `Z`, if there is one. -/
def lastWZ (ss : List GoString) : Option Char :=
  ((ss.filterMap List.head?).filter (fun k => decide (k = 'W' ∨ k = 'Z'))).getLast?

/-- The base-10 text of the natural number `n`: a non-empty string of decimal digits
whose value is `n`, without a leading zero (the text of 0 is `0`). -/
def DecimalText (n : Nat) (t : GoString) : Prop :=
  t ≠ [] ∧ t.all Char.isDigit = true ∧ decimalValue t = n ∧ (t.head? = some '0' → t = ['0'])

/-- The base-10 text of the integer `n`: the text of `n` itself when `n` is not negative
(so it starts with a digit, never with a sign), and `-` followed by the text of the
magnitude when `n` is negative. -/
def SignedDecimalText (n : Int) (t : GoString) : Prop :=
  if n < 0 then t.head? = some '-' ∧ DecimalText n.natAbs t.tail
  else DecimalText n.toNat t

/-- A token the loop gets past: it is not empty (so `f[0]` is in range), an `h` token has
an argument character (so `v[0]` is in range), and an `f` token has a valid 32-bit
argument (so the loop is not left through `return`). -/
def Processable (f : GoString) : Prop :=
  match f with
  | [] => False
  | k :: v => (k = 'h' → v ≠ []) ∧ (k = 'f' → validUint 32 v)

/-- Last occurrence wins: `mr` is the record `mr0` in which every field whose key occurs
in `ss` has been replaced by what the parser decodes from the last token with that key
(`Won` by the last of the `W`/`Z` tokens), all other fields being those of `mr0`. -/
def LastWins (ss : List GoString) (mr0 mr : MetaResult) : Prop :=
  mr.Won = ((lastWZ ss).map (fun k => decide (k = 'W'))).getD mr0.Won ∧
  mr.Stale = ((lastArg 'X' ss).map (fun _ => true)).getD mr0.Stale ∧
  mr.Key = ((lastArg 'k' ss).map (fun a => a)).getD mr0.Key ∧
  mr.Opaque = ((lastArg 'O' ss).map (fun a => a)).getD mr0.Opaque ∧
  mr.CasToken = ((lastArg 'c' ss).map
      (fun a => ({ value := (ParseInt a 64).1, setted := true } : casToken))).getD
    mr0.CasToken ∧
  mr.Flags = ((lastArg 'f' ss).map (fun a => (ParseUint a 32).1 % 2 ^ 32)).getD mr0.Flags ∧
  mr.Hit = ((lastArg 'h' ss).map (fun a => decide (a.head? = some '1'))).getD mr0.Hit ∧
  mr.LastAccess = ((lastArg 'l' ss).map (fun a => (ParseUint a 64).1)).getD mr0.LastAccess ∧
  mr.Size = ((lastArg 's' ss).map (fun a => (ParseUint a 64).1)).getD mr0.Size ∧
  mr.TTL = ((lastArg 't' ss).map (fun a => (ParseUint a 64).1)).getD mr0.TTL

/-- The field holding `x` is the one named by key `k`: it holds the value `dec` decodes
from the argument of every token of `ss` with key `k`, and the zero value `zero` when no
token of `ss` has key `k`. -/
def fieldIs {α : Type} (ss : List GoString) (k : Char) (x : α) (dec : GoString → Option α)
    (zero : α) : Prop :=
  (∀ a, (k :: a) ∈ ss → dec a = some x) ∧ ((∀ a, (k :: a) ∉ ss) → x = zero)

/-- `Won` as named by the present keys: true when a `W` token is present, false when a
`Z` token is present, false when neither is. -/
def WonByKey (ss : List GoString) (mr : MetaResult) : Prop :=
  (∀ a, ('W' :: a) ∈ ss → mr.Won = true) ∧ (∀ a, ('Z' :: a) ∈ ss → mr.Won = false) ∧
  ((∀ a, ('W' :: a) ∉ ss) → (∀ a, ('Z' :: a) ∉ ss) → mr.Won = false)

/-- The fields other than `Won` as named by the present keys: `X` sets `Stale`, `k` and
`O` give their argument verbatim, `c`, `f`, `l`, `s`, `t` give the number their argument
denotes (`c` also sets the presence marker), `h` gives whether the first character of
its argument is `1`; a field whose key is absent has its zero value. -/
def DecodedByKey (ss : List GoString) (mr : MetaResult) : Prop :=
  fieldIs ss 'X' mr.Stale (fun _ => some true) false ∧
  fieldIs ss 'k' mr.Key (fun a => some a) [] ∧
  fieldIs ss 'O' mr.Opaque (fun a => some a) [] ∧
  fieldIs ss 'c' mr.CasToken
    (fun a => (signedDecimal a).map (fun v => ({ value := v, setted := true } : casToken)))
    { value := 0, setted := false } ∧
  fieldIs ss 'f' mr.Flags (fun a => some (decimalValue a)) 0 ∧
  fieldIs ss 'h' mr.Hit (fun a => a.head?.map (fun c => decide (c = '1'))) false ∧
  fieldIs ss 'l' mr.LastAccess (fun a => some (decimalValue a)) 0 ∧
  fieldIs ss 's' mr.Size (fun a => some (decimalValue a)) 0 ∧
  fieldIs ss 't' mr.TTL (fun a => some (decimalValue a)) 0

/-- A flag directive: a value returned by one of the constructors of the source, the
numeric arguments ranging over their Go types (`uint64`, `uint32`, `int64`). -/
inductive Directive : metaFlag → Prop
  | ofBinary : Directive withBinary
  | ofCAS : Directive withCAS
  | ofFlag : Directive withFlag
  | ofHit : Directive withHit
  | ofLastAccess : Directive withLastAccess
  | ofOpaque (token : GoString) : Directive (withOpaque token)
  | ofQuiet : Directive withQuiet
  | ofSize : Directive withSize
  | ofTTL : Directive withTTL
  | ofNoBump : Directive withNoBump
  | ofValue : Directive withValue
  | ofVivify (token : Nat) (h : token < 2 ^ 64) : Directive (withVivify token)
  | ofRecache (token : Nat) (h : token < 2 ^ 64) : Directive (withRecache token)
  | ofSetTTL (token : Nat) (h : token < 2 ^ 64) : Directive (withSetTTL token)
  | ofCompareCAS (token : Int) (h1 : -2 ^ 63 ≤ token) (h2 : token < 2 ^ 63) :
      Directive (withCompareCAS token)
  | ofSetFlag (token : Nat) (h : token < 2 ^ 32) : Directive (withSetFlag token)
  | ofSetInvalid : Directive withSetInvalid
  | ofMode (token : GoString) : Directive (withMode token)
  | ofInitialValue (token : Nat) (h : token < 2 ^ 64) : Directive (withInitialValue token)
  | ofDelta (token : Nat) (h : token < 2 ^ 64) : Directive (withDelta token)

instance validUint.decidable (w : Nat) (a : GoString) : Decidable (validUint w a) :=
  inferInstanceAs (Decidable (a ≠ [] ∧ a.all Char.isDigit = true ∧ decimalValue a ≤ 2 ^ w - 1))

instance validInt64.decidable (a : GoString) : Decidable (validInt64 a) :=
  match h : signedDecimal a with
  | some v => decidable_of_iff (-2 ^ 63 ≤ v ∧ v ≤ 2 ^ 63 - 1) (by simp [validInt64, h])
  | none => isFalse (by simp [validInt64, h])

instance knownKey.decidable (k : Char) : Decidable (knownKey k) :=
  inferInstanceAs (Decidable (k = 'W' ∨ k = 'Z' ∨ k = 'X' ∨ k = 'k' ∨ k = 'O' ∨ k = 'c' ∨
    k = 'f' ∨ k = 'h' ∨ k = 'l' ∨ k = 's' ∨ k = 't'))

instance WellFormedToken.decidable : (f : GoString) → Decidable (WellFormedToken f)
  | [] => isFalse (fun h => h)
  | k :: a => inferInstanceAs (Decidable (
      if k = 'c' then validInt64 a
      else if k = 'f' then validUint 32 a
      else if k = 'l' ∨ k = 's' ∨ k = 't' then validUint 64 a
      else if k = 'h' then a ≠ []
      else k = 'W' ∨ k = 'Z' ∨ k = 'X' ∨ k = 'k' ∨ k = 'O'))

instance Processable.decidable : (f : GoString) → Decidable (Processable f)
  | [] => isFalse (fun h => h)
  | k :: v => inferInstanceAs (Decidable ((k = 'h' → v ≠ []) ∧ (k = 'f' → validUint 32 v)))

instance DecimalText.decidable (n : Nat) (t : GoString) : Decidable (DecimalText n t) :=
  inferInstanceAs (Decidable (t ≠ [] ∧ t.all Char.isDigit = true ∧ decimalValue t = n ∧
    (t.head? = some '0' → t = ['0'])))

instance SignedDecimalText.decidable (n : Int) (t : GoString) :
    Decidable (SignedDecimalText n t) :=
  inferInstanceAs (Decidable (
    if n < 0 then t.head? = some '-' ∧ DecimalText n.natAbs t.tail else DecimalText n.toNat t))

/-- A token on which no index goes out of range: it has at least one character (for
`f[0]`), and at least two when its key is `h` (for `v[0]`). -/
def IndexSafe (f : GoString) : Prop :=
  1 ≤ f.length ∧ (f.head? = some 'h' → 2 ≤ f.length)

instance IndexSafe.decidable (f : GoString) : Decidable (IndexSafe f) :=
  inferInstanceAs (Decidable (1 ≤ f.length ∧ (f.head? = some 'h' → 2 ≤ f.length)))

/-- A token that assigns the error variable: its key is `c`, `l`, `s`, `t` or an
unrecognized character. -/
def errKeyed (f : GoString) : Bool :=
  match f with
  | [] => false
  | k :: _ => decide (k = 'c' ∨ k = 'l' ∨ k = 's' ∨ k = 't' ∨ ¬ knownKey k)

/-- The last token of the list that assigns the error variable, if there is one. -/
def lastErrKeyed (ss : List GoString) : Option GoString :=
  (ss.filter errKeyed).getLast?

/-- A bad token: a `c` token whose argument is not a valid signed 64-bit decimal, an `l`,
`s` or `t` token whose argument is not a valid unsigned 64-bit decimal, or a token with
an unrecognized key. -/
def BadToken (f : GoString) : Prop :=
  match f with
  | [] => False
  | k :: a =>
    (k = 'c' ∧ ¬ validInt64 a) ∨ ((k = 'l' ∨ k = 's' ∨ k = 't') ∧ ¬ validUint 64 a) ∨
      ¬ knownKey k

instance BadToken.decidable : (f : GoString) → Decidable (BadToken f)
  | [] => isFalse (fun h => h)
  | k :: a => inferInstanceAs (Decidable (
      (k = 'c' ∧ ¬ validInt64 a) ∨ ((k = 'l' ∨ k = 's' ∨ k = 't') ∧ ¬ validUint 64 a) ∨
        ¬ knownKey k))

/-- The outcome of a token: the error returned by parsing the list that holds just this
token. -/
def tokenError (f : GoString) : Option GoError :=
  match obtainMetaFlagsResults [f] with
  | some (_, e) => e
  | none => none

end MetaFlags

/-! # Lemmas -/

namespace MetaFlags

/-! ## Digits and `ParseUint` -/

theorem isDigit_iff (c : Char) : c.isDigit = true ↔ 48 ≤ c.toNat ∧ c.toNat ≤ 57 := by
  simp [Char.isDigit, Char.toNat, UInt32.le_def, BitVec.le_def, UInt32.toNat]

theorem digitVal_digit (c : Char) (h : c.isDigit = true) :
    digitVal c = some (c.toNat - 48) := by
  have h1 := (isDigit_iff c).1 h
  have e0 : '0'.toNat = 48 := by decide
  have e9 : '9'.toNat = 57 := by decide
  simp [digitVal, e0, e9, h1]

theorem digitVal_nondigit (c : Char) (h : ¬ c.isDigit = true) :
    digitVal c = none ∨ ∃ d, digitVal c = some d ∧ 10 ≤ d := by
  have h1 : ¬ (48 ≤ c.toNat ∧ c.toNat ≤ 57) := fun h2 => h ((isDigit_iff c).2 h2)
  have e0 : '0'.toNat = 48 := by decide
  have e9 : '9'.toNat = 57 := by decide
  unfold digitVal
  rw [e0, e9, if_neg h1]
  split
  · right; exact ⟨_, rfl, by omega⟩
  · left; rfl

theorem valueFrom_nil (n : Nat) : valueFrom n [] = n := rfl

theorem valueFrom_cons (n : Nat) (c : Char) (cs : GoString) :
    valueFrom n (c :: cs) = valueFrom (10 * n + (c.toNat - 48)) cs := rfl

theorem valueFrom_append (n : Nat) (a b : GoString) :
    valueFrom n (a ++ b) = valueFrom (valueFrom n a) b := by
  simp [valueFrom, List.foldl_append]

theorem le_valueFrom (n : Nat) (cs : GoString) : n ≤ valueFrom n cs := by
  induction cs generalizing n with
  | nil => simp [valueFrom_nil]
  | cons c cs ih =>
    rw [valueFrom_cons]
    exact le_trans (by omega) (ih _)

/-- The digit loop of `ParseUint` ends without an error exactly on a run of decimal
digits whose value, continued from `n`, stays within `maxVal`; the result is then that
value. Every failure is the syntax error with value 0 or the range error with value
`maxVal`. -/
theorem parseUintLoop_spec (s0 : GoString) (maxVal : Nat) (hM : maxVal ≤ 2 ^ 64 - 1)
    (cs : GoString) (n : Nat) (hn : n ≤ maxVal) :
    (cs.all Char.isDigit = true ∧ valueFrom n cs ≤ maxVal ∧
        parseUintLoop s0 maxVal cs n = (valueFrom n cs, none)) ∨
    (¬ (cs.all Char.isDigit = true ∧ valueFrom n cs ≤ maxVal) ∧
        (parseUintLoop s0 maxVal cs n = (0, some (syntaxError "ParseUint" s0)) ∨
         parseUintLoop s0 maxVal cs n = (maxVal, some (rangeError "ParseUint" s0)))) := by
  induction cs generalizing n with
  | nil => left; simp [parseUintLoop, valueFrom_nil, hn]
  | cons c cs ih =>
    by_cases hc : c.isDigit = true
    · have hd := digitVal_digit c hc
      have h1 := (isDigit_iff c).1 hc
      simp only [parseUintLoop, hd, List.all_cons, hc, Bool.true_and, valueFrom_cons]
      have hlt : ¬ (c.toNat - 48 ≥ 10) := by omega
      rw [if_neg hlt]
      have hge := le_valueFrom (10 * n + (c.toNat - 48)) cs
      have p64 : (2 : Nat) ^ 64 = 18446744073709551616 := by norm_num
      have hcv : cutoff10 = 1844674407370955162 := by decide
      rw [p64] at hM
      simp only [p64, hcv]
      by_cases hcut : n ≥ 1844674407370955162
      · rw [if_pos hcut]
        right
        exact ⟨by omega, Or.inr rfl⟩
      · rw [if_neg hcut]
        by_cases hov : (n * 10 % 18446744073709551616 + (c.toNat - 48)) % 18446744073709551616
              < n * 10 % 18446744073709551616 ∨
            (n * 10 % 18446744073709551616 + (c.toNat - 48)) % 18446744073709551616 > maxVal
        · rw [if_pos hov]
          right
          exact ⟨by omega, Or.inr rfl⟩
        · rw [if_neg hov]
          have e1 : (n * 10 % 18446744073709551616 + (c.toNat - 48)) % 18446744073709551616
              = 10 * n + (c.toNat - 48) := by omega
          rw [e1]
          exact ih _ (by omega)
    · right
      refine ⟨by simp [hc], Or.inl ?_⟩
      rcases digitVal_nondigit c hc with h | ⟨d, h, hd⟩
      · simp [parseUintLoop, h]
      · simp [parseUintLoop, h, hd]

/-- `ParseUint` for a width of at most 64 bits: a valid argument gives its decimal
value and no error; any other text gives the syntax error with value 0 or the range
error with the largest value of the width. -/
theorem ParseUint_spec (a : GoString) (w : Nat) (hw : w ≤ 64) :
    (validUint w a ∧ ParseUint a w = (decimalValue a, none)) ∨
    (¬ validUint w a ∧
        (ParseUint a w = (0, some (syntaxError "ParseUint" a)) ∨
         ParseUint a w = (2 ^ w - 1, some (rangeError "ParseUint" a)))) := by
  by_cases ha : a = []
  · right
    subst ha
    exact ⟨fun h => h.1 rfl, Or.inl (by simp [ParseUint])⟩
  · have hM : 2 ^ w - 1 ≤ 2 ^ 64 - 1 :=
      Nat.sub_le_sub_right (Nat.pow_le_pow_right (by norm_num) hw) 1
    have hp : ParseUint a w = parseUintLoop a (2 ^ w - 1) a 0 := by simp [ParseUint, ha]
    rcases parseUintLoop_spec a (2 ^ w - 1) hM a 0 (Nat.zero_le _) with ⟨h1, h2, h3⟩ | ⟨h1, h2⟩
    · left
      exact ⟨⟨ha, h1, h2⟩, by rw [hp, h3]; rfl⟩
    · right
      refine ⟨fun h => h1 ⟨h.2.1, h.2.2⟩, ?_⟩
      rw [hp]
      exact h2

theorem wrapInt64_of_range (i : Int) (h1 : -9223372036854775808 ≤ i)
    (h2 : i ≤ 9223372036854775807) : wrapInt64 i = i := by
  unfold wrapInt64
  norm_num
  omega

theorem wrapInt64_min : wrapInt64 9223372036854775808 = -9223372036854775808 := by
  decide

/-- The part of `ParseInt` after the sign has been picked off, when `ParseUint` accepts
the digits: the magnitude `un` is checked against `2^63`. -/
theorem ParseInt_of_digits (c : Char) (d s1 : GoString) (un : Nat)
    (hs1 : (if c = '+' then d else if c = '-' then d else c :: d) = s1)
    (he : ParseUint s1 64 = (un, none)) :
    ParseInt (c :: d) 64 =
      if c = '-' then
        (if un > 9223372036854775808
          then (-9223372036854775808, some (rangeError "ParseInt" (c :: d)))
          else (-(un : Int), none))
      else
        (if un ≥ 9223372036854775808
          then (9223372036854775807, some (rangeError "ParseInt" (c :: d)))
          else ((un : Int), none)) := by
  have hun : un ≤ 18446744073709551615 := by
    rcases ParseUint_spec s1 64 (le_refl _) with ⟨hv, h⟩ | ⟨_, h | h⟩
    · rw [he] at h
      have := hv.2.2
      norm_num at this
      have h' := (Prod.mk.inj h).1
      omega
    · rw [he] at h; simp at h
    · rw [he] at h; simp at h
  simp only [ParseInt, hs1, he]
  by_cases hm : c = '-'
  · subst hm
    simp only [if_true]
    by_cases hr : un > 9223372036854775808
    · simp [hr, wrapInt64_min]
    · have e1 : wrapInt64 (un : Int) =
          if un = 9223372036854775808 then (-9223372036854775808 : Int) else (un : Int) := by
        unfold wrapInt64
        split <;> norm_num <;> omega
      have e2 : wrapInt64 (-(wrapInt64 (un : Int))) = -(un : Int) := by
        rw [e1]
        unfold wrapInt64
        split <;> norm_num <;> omega
      simp [hr, e2]
  · by_cases hr : un ≥ 9223372036854775808
    · simp [hm, hr]
      decide
    · have e1 : wrapInt64 (un : Int) = un := wrapInt64_of_range _ (by omega) (by omega)
      simp [hm, hr, e1]

/-- When `ParseUint` rejects the digits, `ParseInt` returns an error as well. -/
theorem ParseInt_of_error (c : Char) (d s1 : GoString)
    (hs1 : (if c = '+' then d else if c = '-' then d else c :: d) = s1)
    (he : ParseUint s1 64 = (0, some (syntaxError "ParseUint" s1)) ∨
         ParseUint s1 64 = (2 ^ 64 - 1, some (rangeError "ParseUint" s1))) :
    ∃ e, (ParseInt (c :: d) 64).2 = some e := by
  rcases he with he | he
  · exact ⟨syntaxError "ParseInt" (c :: d), by simp [ParseInt, hs1, he, syntaxError]⟩
  · refine ⟨rangeError "ParseInt" (c :: d), ?_⟩
    simp only [ParseInt, hs1, he, rangeError]
    by_cases hm : c = '-'
    · subst hm; simp
    · by_cases hp : c = '+'
      · subst hp; simp
      · simp [hm, hp]

/-- `ParseInt` for 64 bits: a valid argument gives its value and no error; any other
text gives an error. -/
theorem ParseInt_spec (a : GoString) :
    (∃ v : Int, signedDecimal a = some v ∧ -2 ^ 63 ≤ v ∧ v ≤ 2 ^ 63 - 1 ∧
        ParseInt a 64 = (v, none)) ∨
    (¬ validInt64 a ∧ ∃ e, (ParseInt a 64).2 = some e) := by
  cases a with
  | nil => right; exact ⟨by simp [validInt64, signedDecimal], _, rfl⟩
  | cons c d =>
    obtain ⟨s1, hs1⟩ : ∃ s1, (if c = '+' then d else if c = '-' then d else c :: d) = s1 :=
      ⟨_, rfl⟩
    -- the text is a signed digit string exactly when the part after the sign is digits
    have hsd : signedDecimal (c :: d) =
        if s1 ≠ [] ∧ s1.all Char.isDigit = true then
          some (if c = '-' then -(decimalValue s1 : Int) else (decimalValue s1 : Int))
        else none := by
      by_cases hp : c = '+'
      · subst hp
        simp only [if_true] at hs1
        subst hs1
        simp [signedDecimal]
      · by_cases hm : c = '-'
        · subst hm
          simp only [if_true] at hs1
          have : d = s1 := by simpa using hs1
          subst this
          simp [signedDecimal]
        · simp only [hp, hm, if_false] at hs1
          subst hs1
          simp [signedDecimal, hp, hm]
    rcases ParseUint_spec s1 64 (le_refl _) with ⟨hv, he⟩ | ⟨hv, he⟩
    · have hev := ParseInt_of_digits c d s1 _ hs1 he
      obtain ⟨h1, h2, h3⟩ := hv
      rw [if_pos ⟨h1, h2⟩] at hsd
      by_cases hm : c = '-'
      · rw [if_pos hm] at hev hsd
        by_cases hr : decimalValue s1 > 9223372036854775808
        · right
          rw [if_pos hr] at hev
          refine ⟨?_, _, by rw [hev]⟩
          simp only [validInt64, hsd]
          norm_num
          omega
        · left
          rw [if_neg hr] at hev
          refine ⟨_, hsd, ?_, ?_, hev⟩
          · norm_num; omega
          · norm_num; omega
      · rw [if_neg hm] at hev hsd
        by_cases hr : decimalValue s1 ≥ 9223372036854775808
        · right
          rw [if_pos hr] at hev
          refine ⟨?_, _, by rw [hev]⟩
          simp only [validInt64, hsd]
          norm_num
          omega
        · left
          rw [if_neg hr] at hev
          refine ⟨_, hsd, ?_, ?_, hev⟩
          · norm_num; omega
          · norm_num; omega
    · right
      refine ⟨?_, ParseInt_of_error c d s1 hs1 he⟩
      intro hval
      apply hv
      simp only [validInt64, hsd] at hval
      by_cases hdig : s1 ≠ [] ∧ s1.all Char.isDigit = true
      · rw [if_pos hdig] at hval
        refine ⟨hdig.1, hdig.2, ?_⟩
        by_cases hm : c = '-'
        · rw [if_pos hm] at hval
          norm_num at hval ⊢
          omega
        · rw [if_neg hm] at hval
          norm_num at hval ⊢
          omega
      · rw [if_neg hdig] at hval
        exact hval.elim

/-! ## The builder -/

theorem foldl_sep (sep e : GoString) (rest : List GoString) :
    rest.foldl (fun b s => b ++ sep ++ s) e = e ++ (rest.map (fun s => sep ++ s)).flatten := by
  induction rest generalizing e with
  | nil => simp
  | cons x xs ih =>
    rw [List.foldl_cons, ih]
    simp [List.append_assoc]

theorem intercalate_cons_cons (sep e x : GoString) (xs : List GoString) :
    sep.intercalate (e :: x :: xs) = e ++ sep ++ sep.intercalate (x :: xs) := by
  simp [List.intercalate, List.intersperse]

theorem intercalate_eq (sep e : GoString) (rest : List GoString) :
    sep.intercalate (e :: rest) = e ++ (rest.map (fun s => sep ++ s)).flatten := by
  induction rest generalizing e with
  | nil => simp [List.intercalate]
  | cons x xs ih => rw [intercalate_cons_cons, ih x]; simp [List.append_assoc]

/-- Go's `strings.Join` is the interleaving of the elements with the separator. -/
theorem Join_eq_intercalate (elems : List GoString) (sep : GoString) :
    Join elems sep = sep.intercalate elems := by
  match elems with
  | [] => simp [Join, List.intercalate]
  | [e] => simp [Join, List.intercalate]
  | e :: x :: xs => rw [intercalate_eq]; simp only [Join]; rw [foldl_sep]

theorem build_foldl (fs : List metaFlag) (acc : List GoString) :
    fs.foldl (fun ss f => f.build ss) acc = acc ++ fs.map (fun f => f.k ++ f.i) := by
  induction fs generalizing acc with
  | nil => simp
  | cons f fs ih =>
    rw [List.foldl_cons, ih]
    simp [metaFlag.build, List.append_assoc]

theorem buildMetaFlags_eq (fs : List metaFlag) :
    buildMetaFlags fs = [' '].intercalate (fs.map (fun f => f.k ++ f.i)) := by
  unfold buildMetaFlags
  rw [build_foldl, Join_eq_intercalate]
  rfl

/-! ## `FormatUint` and `FormatInt` -/

set_option maxRecDepth 100000 in
theorem smalls_spec : ∀ k : Fin 100,
    (smallsString.getD (k.val * 2) '0').isDigit = true ∧
    (smallsString.getD (k.val * 2 + 1) '0').isDigit = true ∧
    (smallsString.getD (k.val * 2) '0').toNat - 48 = k.val / 10 ∧
    (smallsString.getD (k.val * 2 + 1) '0').toNat - 48 = k.val % 10 := by
  decide

set_option maxRecDepth 100000 in
theorem small_eq_tail : ∀ k : Fin 100, small k.val = formatBitsTail k.val [] := by
  decide

theorem isDigit_ne_zero (c : Char) (h : 0 < c.toNat - 48) : c ≠ '0' := by
  intro hc
  subst hc
  simp at h

theorem formatBitsTail_spec (us : Nat) (h : us < 100) (a : List Char) :
    ∃ pre, formatBitsTail us a = pre ++ a ∧ DecimalText us pre := by
  obtain ⟨h1, h0, v1, v0⟩ := smalls_spec ⟨us, h⟩
  simp only at h1 h0 v1 v0
  by_cases h10 : us ≥ 10
  · refine ⟨[smallsString.getD (us * 2) '0', smallsString.getD (us * 2 + 1) '0'], ?_, ?_⟩
    · simp [formatBitsTail, h10]
    · refine ⟨by simp, by simp only [List.all_cons, List.all_nil, h1, h0, Bool.and_self], ?_, ?_⟩
      · simp only [decimalValue, valueFrom_cons, valueFrom_nil, v1, v0]
        omega
      · intro hh
        exfalso
        have : smallsString.getD (us * 2) '0' = '0' := by simpa using hh
        exact isDigit_ne_zero _ (by omega) this
  · refine ⟨[smallsString.getD (us * 2 + 1) '0'], ?_, ?_⟩
    · simp [formatBitsTail, h10]
    · refine ⟨by simp, by simp only [List.all_cons, List.all_nil, h0, Bool.and_self], ?_, ?_⟩
      · simp only [decimalValue, valueFrom_cons, valueFrom_nil, v0]
        omega
      · intro hh
        simpa using hh

/-- The digit loop of `formatBits` writes the base-10 text of `us` in front of the
buffer, when the bound on the passes is at least `us`. -/
theorem formatBitsLoop_spec (fuel us : Nat) (hf : us ≤ fuel) (a : List Char) :
    ∃ pre, formatBitsLoop fuel us a = pre ++ a ∧ DecimalText us pre := by
  induction fuel generalizing us a with
  | zero =>
    simp only [formatBitsLoop]
    exact formatBitsTail_spec us (by omega) a
  | succ fuel ih =>
    simp only [formatBitsLoop]
    by_cases h100 : us ≥ 100
    · rw [if_pos h100]
      obtain ⟨h1, h0, v1, v0⟩ := smalls_spec ⟨us % 100, Nat.mod_lt _ (by norm_num)⟩
      simp only at h1 h0 v1 v0
      obtain ⟨pre, hpre, hne, hdig, hval, hhead⟩ := ih (us / 100) (by omega)
        (smallsString.getD (us % 100 * 2) '0' :: smallsString.getD (us % 100 * 2 + 1) '0' :: a)
      refine ⟨pre ++ [smallsString.getD (us % 100 * 2) '0',
        smallsString.getD (us % 100 * 2 + 1) '0'], ?_, ?_⟩
      · rw [hpre]; simp
      · refine ⟨by simp, ?_, ?_, ?_⟩
        · simp only [List.all_append, hdig, List.all_cons, h1, h0, List.all_nil, Bool.and_self]
        · unfold decimalValue at hval ⊢
          rw [valueFrom_append, hval]
          simp only [valueFrom_cons, valueFrom_nil, v1, v0]
          omega
        · intro hh
          exfalso
          have hp : pre.head? = some '0' := by
            cases pre with
            | nil => exact absurd rfl hne
            | cons x xs => simpa using hh
          have := hhead hp
          subst this
          simp [decimalValue, valueFrom] at hval
          omega
    · rw [if_neg h100]
      exact formatBitsTail_spec us (by omega) a

theorem formatBitsLoop_small (us : Nat) (h : us < 100) (a : List Char) :
    formatBitsLoop us us a = formatBitsTail us a := by
  cases us with
  | zero => rfl
  | succ n => simp only [formatBitsLoop]; rw [if_neg (by omega)]

theorem FormatUint_eq (n : Nat) : FormatUint n = formatBitsLoop n n [] := by
  unfold FormatUint
  by_cases h : n < 100
  · rw [if_pos h, formatBitsLoop_small n h]
    exact small_eq_tail ⟨n, h⟩
  · rw [if_neg h]
    simp [formatBits]

/-- `FormatUint` gives the base-10 text of its argument. -/
theorem FormatUint_spec (n : Nat) : DecimalText n (FormatUint n) := by
  obtain ⟨pre, h1, h2⟩ := formatBitsLoop_spec n n (le_refl _) []
  rw [FormatUint_eq, h1]
  simpa using h2

/-- `FormatInt` on a signed 64-bit value: the text of the magnitude, with `-` in front
exactly when the value is negative. -/
theorem FormatInt_eq (n : Int) (h1 : -2 ^ 63 ≤ n) (h2 : n ≤ 2 ^ 63 - 1) :
    FormatInt n = if n < 0 then '-' :: FormatUint n.natAbs else FormatUint n.toNat := by
  norm_num at h1 h2
  unfold FormatInt
  by_cases hs : 0 ≤ n ∧ n < 100
  · rw [if_pos hs, if_neg (by omega)]
    unfold FormatUint
    rw [if_pos (by omega)]
  · rw [if_neg hs]
    by_cases hneg : n < 0
    · rw [if_pos hneg, FormatUint_eq]
      have e : (18446744073709551616 - (n % 18446744073709551616).toNat) %
          18446744073709551616 = n.natAbs := by
        omega
      simp [formatBits, hneg, e]
    · rw [if_neg hneg]
      have e : (n % 18446744073709551616).toNat = n.toNat := by
        omega
      unfold FormatUint
      rw [if_neg (by omega)]
      simp [formatBits, hneg, e]

theorem FormatInt_spec (n : Int) (h1 : -2 ^ 63 ≤ n) (h2 : n ≤ 2 ^ 63 - 1) :
    SignedDecimalText n (FormatInt n) := by
  rw [FormatInt_eq n h1 h2]
  unfold SignedDecimalText
  by_cases hneg : n < 0
  · rw [if_pos hneg, if_pos hneg]
    exact ⟨rfl, FormatUint_spec _⟩
  · rw [if_neg hneg, if_neg hneg]
    exact FormatUint_spec _

/-! ## The parser: one token -/

theorem getLast?_cons_orElse {α : Type} (a : α) (l : List α) :
    (a :: l).getLast? = l.getLast?.orElse (fun _ => some a) := by
  cases l with
  | nil => simp
  | cons x xs =>
    rw [List.getLast?_cons_cons]
    cases h : (x :: xs).getLast? with
    | none => simp at h
    | some y => simp

theorem lastArg_nil (k : Char) : lastArg k [] = none := rfl

theorem lastArg_single (k : Char) (f : GoString) :
    lastArg k [f] = if f.head? = some k then some f.tail else none := by
  by_cases h : f.head? = some k <;> simp [lastArg, List.filter, h]

theorem lastArg_cons (k : Char) (f : GoString) (rest : List GoString) :
    lastArg k (f :: rest) = (lastArg k rest).orElse (fun _ => lastArg k [f]) := by
  unfold lastArg
  by_cases h : f.head? = some k
  · simp only [List.filter_cons, h, decide_True, if_true, List.filter_nil]
    rw [getLast?_cons_orElse]
    cases (rest.filter (fun f => decide (f.head? = some k))).getLast? <;> simp
  · simp only [List.filter_cons, h, decide_False, Bool.false_eq_true, if_false, List.filter_nil]
    generalize (rest.filter (fun f => decide (f.head? = some k))).getLast? = o
    cases o <;> simp

theorem lastWZ_nil : lastWZ [] = none := rfl

theorem lastWZ_single (f : GoString) :
    lastWZ [f] = if f.head? = some 'W' ∨ f.head? = some 'Z' then f.head? else none := by
  cases f with
  | nil => simp [lastWZ]
  | cons k v =>
    by_cases h : k = 'W' ∨ k = 'Z' <;> simp [lastWZ, List.filter, h]

theorem lastWZ_cons (f : GoString) (rest : List GoString) :
    lastWZ (f :: rest) = (lastWZ rest).orElse (fun _ => lastWZ [f]) := by
  unfold lastWZ
  cases f with
  | nil =>
    simp only [List.filterMap_cons, List.head?_nil, List.filterMap_nil, List.filter_nil]
    cases ((rest.filterMap List.head?).filter (fun k => decide (k = 'W' ∨ k = 'Z'))).getLast? <;> simp
  | cons k v =>
    by_cases h : k = 'W' ∨ k = 'Z'
    · simp only [List.filterMap_cons, List.head?_cons, List.filter_cons, h, decide_True, if_true,
        List.filterMap_nil, List.filter_nil]
      rw [getLast?_cons_orElse]
      cases ((rest.filterMap List.head?).filter (fun k => decide (k = 'W' ∨ k = 'Z'))).getLast? <;> simp
    · simp only [List.filterMap_cons, List.head?_cons, List.filter_cons, h, decide_False,
        Bool.false_eq_true, if_false, List.filterMap_nil, List.filter_nil]
      generalize ((rest.filterMap List.head?).filter
        (fun k => decide (k = 'W' ∨ k = 'Z'))).getLast? = o
      cases o <;> simp

/-- Composition of two "last occurrence" updates of one field. -/
theorem getD_compose {α β : Type} (dec : β → α) (o1 o2 : Option β) (x0 x1 x2 : α)
    (h1 : x1 = (o1.map dec).getD x0) (h2 : x2 = (o2.map dec).getD x1) :
    x2 = ((o2.orElse (fun _ => o1)).map dec).getD x0 := by
  cases o2 with
  | none => simpa [h1] using h2
  | some b => simpa using h2

theorem LastWins_nil (mr : MetaResult) : LastWins [] mr mr := by
  simp [LastWins, lastArg_nil, lastWZ_nil]

theorem LastWins_cons (f : GoString) (rest : List GoString) (mr0 mr1 mr2 : MetaResult)
    (h1 : LastWins [f] mr0 mr1) (h2 : LastWins rest mr1 mr2) :
    LastWins (f :: rest) mr0 mr2 := by
  obtain ⟨a1, a2, a3, a4, a5, a6, a7, a8, a9, a10⟩ := h1
  obtain ⟨b1, b2, b3, b4, b5, b6, b7, b8, b9, b10⟩ := h2
  unfold LastWins
  simp only [lastArg_cons _ f rest, lastWZ_cons f rest]
  exact ⟨getD_compose _ _ _ _ _ _ a1 b1, getD_compose _ _ _ _ _ _ a2 b2,
    getD_compose _ _ _ _ _ _ a3 b3, getD_compose _ _ _ _ _ _ a4 b4,
    getD_compose _ _ _ _ _ _ a5 b5, getD_compose _ _ _ _ _ _ a6 b6,
    getD_compose _ _ _ _ _ _ a7 b7, getD_compose _ _ _ _ _ _ a8 b8,
    getD_compose _ _ _ _ _ _ a9 b9, getD_compose _ _ _ _ _ _ a10 b10⟩

theorem ParseUint_valid (a : GoString) (w : Nat) (hw : w ≤ 64) (h : validUint w a) :
    ParseUint a w = (decimalValue a, none) := by
  rcases ParseUint_spec a w hw with ⟨_, he⟩ | ⟨hn, _⟩
  · exact he
  · exact absurd h hn

theorem ParseUint_ok_iff (a : GoString) (w : Nat) (hw : w ≤ 64) :
    (ParseUint a w).2 = none ↔ validUint w a := by
  rcases ParseUint_spec a w hw with ⟨hv, he⟩ | ⟨hn, he | he⟩
  · simp [he, hv]
  · simp [he, hn]
  · simp [he, hn]

theorem obtainStep_W (v : GoString) (mr : MetaResult) (err : Option GoError) :
    obtainStep ('W' :: v) mr err = .next { mr with Won := true } err := rfl

theorem obtainStep_Z (v : GoString) (mr : MetaResult) (err : Option GoError) :
    obtainStep ('Z' :: v) mr err = .next { mr with Won := false } err := rfl

theorem obtainStep_X (v : GoString) (mr : MetaResult) (err : Option GoError) :
    obtainStep ('X' :: v) mr err = .next { mr with Stale := true } err := rfl

theorem obtainStep_k (v : GoString) (mr : MetaResult) (err : Option GoError) :
    obtainStep ('k' :: v) mr err = .next { mr with Key := v } err := rfl

theorem obtainStep_O (v : GoString) (mr : MetaResult) (err : Option GoError) :
    obtainStep ('O' :: v) mr err = .next { mr with Opaque := v } err := rfl

theorem obtainStep_c (v : GoString) (mr : MetaResult) (err : Option GoError) :
    obtainStep ('c' :: v) mr err =
      .next { mr with CasToken := { value := (ParseInt v 64).1, setted := true } }
        ((ParseInt v 64).2.map GoError.num) := rfl

theorem obtainStep_f (v : GoString) (mr : MetaResult) (err : Option GoError) :
    obtainStep ('f' :: v) mr err =
      match (ParseUint v 32).2 with
      | some e => .ret mr (some (GoError.num e))
      | none => .next { mr with Flags := (ParseUint v 32).1 % 2 ^ 32 } err := rfl

theorem obtainStep_h_nil (mr : MetaResult) (err : Option GoError) :
    obtainStep ['h'] mr err = .panic := rfl

theorem obtainStep_h (v0 : Char) (vs : GoString) (mr : MetaResult) (err : Option GoError) :
    obtainStep ('h' :: v0 :: vs) mr err = .next { mr with Hit := decide (v0 = '1') } err := rfl

theorem obtainStep_l (v : GoString) (mr : MetaResult) (err : Option GoError) :
    obtainStep ('l' :: v) mr err =
      .next { mr with LastAccess := (ParseUint v 64).1 }
        ((ParseUint v 64).2.map GoError.num) := rfl

theorem obtainStep_s (v : GoString) (mr : MetaResult) (err : Option GoError) :
    obtainStep ('s' :: v) mr err =
      .next { mr with Size := (ParseUint v 64).1 } ((ParseUint v 64).2.map GoError.num) := rfl

theorem obtainStep_t (v : GoString) (mr : MetaResult) (err : Option GoError) :
    obtainStep ('t' :: v) mr err =
      .next { mr with TTL := (ParseUint v 64).1 } ((ParseUint v 64).2.map GoError.num) := rfl

theorem not_knownKey (k : Char) (h : ¬ knownKey k) :
    k ≠ 'W' ∧ k ≠ 'Z' ∧ k ≠ 'X' ∧ k ≠ 'k' ∧ k ≠ 'O' ∧ k ≠ 'c' ∧ k ≠ 'f' ∧ k ≠ 'h' ∧
      k ≠ 'l' ∧ k ≠ 's' ∧ k ≠ 't' := by
  simpa [knownKey, not_or] using h

theorem obtainStep_default (k : Char) (v : GoString) (mr : MetaResult) (err : Option GoError)
    (h : ¬ knownKey k) : obtainStep (k :: v) mr err = .next mr (some (invalidFlag k)) := by
  obtain ⟨h1, h2, h3, h4, h5, h6, h7, h8, h9, h10, h11⟩ := not_knownKey k h
  simp only [obtainStep, h1, h2, h3, h4, h5, h6, h7, h8, h9, h10, h11, if_false]

/-- One pass of the loop over a token it gets past: the loop goes on, and the record is
updated in the field of the token's key only. -/
theorem obtainStep_next (f : GoString) (mr : MetaResult) (err : Option GoError)
    (hp : Processable f) :
    ∃ mr1 err1, obtainStep f mr err = .next mr1 err1 ∧ LastWins [f] mr mr1 := by
  cases f with
  | nil => exact hp.elim
  | cons k v =>
    obtain ⟨hh, hf⟩ := hp
    by_cases hk : knownKey k
    · rcases hk with h | h | h | h | h | h | h | h | h | h | h <;> subst h
      · exact ⟨_, _, obtainStep_W _ _ _, by simp [LastWins, lastArg_single, lastWZ_single]⟩
      · exact ⟨_, _, obtainStep_Z _ _ _, by simp [LastWins, lastArg_single, lastWZ_single]⟩
      · exact ⟨_, _, obtainStep_X _ _ _, by simp [LastWins, lastArg_single, lastWZ_single]⟩
      · exact ⟨_, _, obtainStep_k _ _ _, by simp [LastWins, lastArg_single, lastWZ_single]⟩
      · exact ⟨_, _, obtainStep_O _ _ _, by simp [LastWins, lastArg_single, lastWZ_single]⟩
      · exact ⟨_, _, obtainStep_c _ _ _, by simp [LastWins, lastArg_single, lastWZ_single]⟩
      · have := (ParseUint_ok_iff v 32 (by norm_num)).2 (hf rfl)
        refine ⟨{ mr with Flags := (ParseUint v 32).1 % 2 ^ 32 }, err, ?_, ?_⟩
        · rw [obtainStep_f, this]
        · simp [LastWins, lastArg_single, lastWZ_single]
      · cases v with
        | nil => exact absurd rfl (hh rfl)
        | cons v0 vs =>
          exact ⟨_, _, obtainStep_h _ _ _ _, by simp [LastWins, lastArg_single, lastWZ_single]⟩
      · exact ⟨_, _, obtainStep_l _ _ _, by simp [LastWins, lastArg_single, lastWZ_single]⟩
      · exact ⟨_, _, obtainStep_s _ _ _, by simp [LastWins, lastArg_single, lastWZ_single]⟩
      · exact ⟨_, _, obtainStep_t _ _ _, by simp [LastWins, lastArg_single, lastWZ_single]⟩
    · obtain ⟨h1, h2, h3, h4, h5, h6, h7, h8, h9, h10, h11⟩ := not_knownKey k hk
      exact ⟨_, _, obtainStep_default k v mr err hk, by
        simp [LastWins, lastArg_single, lastWZ_single, h1, h2, h3, h4, h5, h6, h7, h8, h9,
          h10, h11]⟩

/-! ## The parser: the loop -/

theorem obtainLoop_cons_next (f : GoString) (rest : List GoString) (mr mr1 : MetaResult)
    (err err1 : Option GoError) (h : obtainStep f mr err = .next mr1 err1) :
    obtainLoop (f :: rest) mr err = obtainLoop rest mr1 err1 := by
  simp only [obtainLoop, h]

/-- Over tokens the loop gets past, the loop runs to the end of the list: what follows
is processed from the state reached, and that state is the last-occurrence update of
the starting record. -/
theorem obtainLoop_run (p : List GoString) (mr : MetaResult) (err : Option GoError)
    (hp : ∀ f ∈ p, Processable f) :
    ∃ mr1 err1, (∀ q, obtainLoop (p ++ q) mr err = obtainLoop q mr1 err1) ∧
      LastWins p mr mr1 := by
  induction p generalizing mr err with
  | nil => exact ⟨mr, err, fun q => rfl, LastWins_nil mr⟩
  | cons f rest ih =>
    obtain ⟨mr1, err1, hs, hl⟩ := obtainStep_next f mr err (hp f (by simp))
    obtain ⟨mr2, err2, hq, hl2⟩ := ih mr1 err1 (fun g hg => hp g (by simp [hg]))
    refine ⟨mr2, err2, fun q => ?_, LastWins_cons f rest mr mr1 mr2 hl hl2⟩
    rw [List.cons_append, obtainLoop_cons_next f _ mr mr1 err err1 hs]
    exact hq q

/-- A token the loop does not get past makes the step panic or return an error. -/
theorem obtainStep_not_processable (f : GoString) (mr : MetaResult) (err : Option GoError)
    (hp : ¬ Processable f) :
    obtainStep f mr err = .panic ∨ ∃ e, obtainStep f mr err = .ret mr (some e) := by
  cases f with
  | nil => left; rfl
  | cons k v =>
    by_cases hh : k = 'h'
    · subst hh
      cases v with
      | nil => left; rfl
      | cons v0 vs => exact absurd (show Processable ('h' :: v0 :: vs) from
          ⟨fun _ => by simp, fun h => by simp at h⟩) hp
    · by_cases hf : k = 'f'
      · subst hf
        have hv : ¬ validUint 32 v := fun hv => hp ⟨fun h => by simp at h, fun _ => hv⟩
        have hne : (ParseUint v 32).2 ≠ none := fun h =>
          hv ((ParseUint_ok_iff v 32 (by norm_num)).1 h)
        right
        rw [obtainStep_f]
        cases hpu : (ParseUint v 32).2 with
        | none => exact absurd hpu hne
        | some e => exact ⟨_, rfl⟩
      · exact absurd (show Processable (k :: v) from
          ⟨fun h => absurd h hh, fun h => absurd h hf⟩) hp

/-- A call that returns without an error has got past every token. -/
theorem obtainLoop_ok_processable (ss : List GoString) (mr mr1 : MetaResult)
    (err : Option GoError) (h : obtainLoop ss mr err = some (mr1, none)) :
    ∀ f ∈ ss, Processable f := by
  induction ss generalizing mr err with
  | nil => simp
  | cons f rest ih =>
    by_cases hp : Processable f
    · obtain ⟨mr2, err2, hs, _⟩ := obtainStep_next f mr err hp
      rw [obtainLoop_cons_next f rest mr mr2 err err2 hs] at h
      intro g hg
      rcases List.mem_cons.1 hg with rfl | hg
      · exact hp
      · exact ih mr2 err2 h g hg
    · rcases obtainStep_not_processable f mr err hp with hs | ⟨e, hs⟩
      · simp [obtainLoop, hs] at h
      · simp [obtainLoop, hs] at h

theorem ParseInt_valid (a : GoString) (h : validInt64 a) :
    ∃ v, signedDecimal a = some v ∧ ParseInt a 64 = (v, none) := by
  rcases ParseInt_spec a with ⟨v, h1, _, _, h4⟩ | ⟨hn, _⟩
  · exact ⟨v, h1, h4⟩
  · exact absurd h hn

theorem WellFormedToken.processable (f : GoString) (h : WellFormedToken f) : Processable f := by
  cases f with
  | nil => exact h.elim
  | cons k v =>
    refine ⟨fun hk => ?_, fun hk => ?_⟩
    · subst hk; simpa [WellFormedToken] using h
    · subst hk; simpa [WellFormedToken] using h

/-- A well-formed token leaves the error nil when it was nil. -/
theorem obtainStep_wellFormed (f : GoString) (mr : MetaResult) (h : WellFormedToken f) :
    ∃ mr1, obtainStep f mr none = .next mr1 none := by
  cases f with
  | nil => exact h.elim
  | cons k v =>
    by_cases hc : k = 'c'
    · subst hc
      obtain ⟨x, _, hx⟩ := ParseInt_valid v (by simpa [WellFormedToken] using h)
      exact ⟨_, by rw [obtainStep_c, hx]; rfl⟩
    · by_cases hf : k = 'f'
      · subst hf
        have hv : validUint 32 v := by simpa [WellFormedToken] using h
        have := (ParseUint_ok_iff v 32 (by norm_num)).2 hv
        exact ⟨{ mr with Flags := (ParseUint v 32).1 % 2 ^ 32 }, by rw [obtainStep_f, this]⟩
      · by_cases hl : k = 'l' ∨ k = 's' ∨ k = 't'
        · have hv : validUint 64 v := by simpa [WellFormedToken, hc, hf, hl] using h
          have := ParseUint_valid v 64 (le_refl _) hv
          rcases hl with rfl | rfl | rfl
          · exact ⟨_, by rw [obtainStep_l, this]; rfl⟩
          · exact ⟨_, by rw [obtainStep_s, this]; rfl⟩
          · exact ⟨_, by rw [obtainStep_t, this]; rfl⟩
        · by_cases hh : k = 'h'
          · subst hh
            have hv : v ≠ [] := by simpa [WellFormedToken] using h
            cases v with
            | nil => exact absurd rfl hv
            | cons v0 vs => exact ⟨_, obtainStep_h _ _ _ _⟩
          · have hk : k = 'W' ∨ k = 'Z' ∨ k = 'X' ∨ k = 'k' ∨ k = 'O' := by
              simpa [WellFormedToken, hc, hf, hl, hh] using h
            rcases hk with rfl | rfl | rfl | rfl | rfl
            · exact ⟨_, obtainStep_W _ _ _⟩
            · exact ⟨_, obtainStep_Z _ _ _⟩
            · exact ⟨_, obtainStep_X _ _ _⟩
            · exact ⟨_, obtainStep_k _ _ _⟩
            · exact ⟨_, obtainStep_O _ _ _⟩

/-- Over well-formed tokens the loop runs to the end of the list and the error stays
nil. -/
theorem obtainLoop_wellFormed (p : List GoString) (mr : MetaResult)
    (hp : ∀ f ∈ p, WellFormedToken f) :
    ∃ mr1, (∀ q, obtainLoop (p ++ q) mr none = obtainLoop q mr1 none) ∧ LastWins p mr mr1 := by
  induction p generalizing mr with
  | nil => exact ⟨mr, fun q => rfl, LastWins_nil mr⟩
  | cons f rest ih =>
    obtain ⟨mr1, hs⟩ := obtainStep_wellFormed f mr (hp f (by simp))
    obtain ⟨mr1', err1', hs', hl⟩ := obtainStep_next f mr none
      (WellFormedToken.processable f (hp f (by simp)))
    have : mr1' = mr1 := by
      rw [hs] at hs'
      exact (Flow.next.inj hs').1.symm
    subst this
    obtain ⟨mr2, hq, hl2⟩ := ih mr1' (fun g hg => hp g (by simp [hg]))
    refine ⟨mr2, fun q => ?_, LastWins_cons f rest mr mr1' mr2 hl hl2⟩
    rw [List.cons_append, obtainLoop_cons_next f _ mr mr1' none none hs]
    exact hq q

/-! ## Tokens with pairwise distinct keys -/

theorem lastArg_mem (k : Char) (ss : List GoString) (a : GoString)
    (h : lastArg k ss = some a) : (k :: a) ∈ ss := by
  unfold lastArg at h
  cases hl : (ss.filter (fun f => decide (f.head? = some k))).getLast? with
  | none => simp [hl] at h
  | some f =>
    rw [hl] at h
    have hm := List.mem_of_getLast?_eq_some hl
    rw [List.mem_filter] at hm
    have hf : f.head? = some k := by simpa using hm.2
    have ha : f.tail = a := by simpa using h
    cases f with
    | nil => simp at hf
    | cons c v =>
      simp at hf ha
      subst hf; subst ha
      exact hm.1

theorem lastArg_of_absent (k : Char) (ss : List GoString) (h : ∀ a, (k :: a) ∉ ss) :
    lastArg k ss = none := by
  cases hl : lastArg k ss with
  | none => rfl
  | some a => exact absurd (lastArg_mem k ss a hl) (h a)

theorem lastArg_of_mem (k : Char) (ss : List GoString) (a : GoString)
    (hnd : (ss.map List.head?).Nodup) (h : (k :: a) ∈ ss) : lastArg k ss = some a := by
  cases hl : lastArg k ss with
  | none =>
    exfalso
    unfold lastArg at hl
    have hnil : ss.filter (fun f => decide (f.head? = some k)) = [] := by
      simpa using hl
    have hm : (k :: a) ∈ ss.filter (fun f => decide (f.head? = some k)) := by
      rw [List.mem_filter]; exact ⟨h, by simp⟩
    rw [hnil] at hm
    simp at hm
  | some b =>
    have hb := lastArg_mem k ss b hl
    have := List.inj_on_of_nodup_map hnd hb h (by simp)
    simp at this
    rw [this]

theorem fieldIs_of_last {α : Type} (ss : List GoString) (hnd : (ss.map List.head?).Nodup)
    (k : Char) (x zero : α) (decCode : GoString → α) (dec : GoString → Option α)
    (hx : x = ((lastArg k ss).map decCode).getD zero)
    (hdec : ∀ a, (k :: a) ∈ ss → dec a = some (decCode a)) : fieldIs ss k x dec zero := by
  refine ⟨fun a ha => ?_, fun habs => ?_⟩
  · rw [lastArg_of_mem k ss a hnd ha] at hx
    rw [hdec a ha, hx]
    rfl
  · rw [lastArg_of_absent k ss habs] at hx
    exact hx

/-- On well-formed tokens with pairwise distinct keys, the last-occurrence update of the
zero record holds, in every field but `Won`, what the present keys name. -/
theorem DecodedByKey_of_LastWins (ss : List GoString) (mr : MetaResult)
    (hwf : ∀ f ∈ ss, WellFormedToken f) (hnd : (ss.map List.head?).Nodup)
    (h : LastWins ss {} mr) : DecodedByKey ss mr := by
  obtain ⟨_, b2, b3, b4, b5, b6, b7, b8, b9, b10⟩ := h
  refine ⟨fieldIs_of_last ss hnd _ _ _ _ _ b2 (fun a _ => rfl),
    fieldIs_of_last ss hnd _ _ _ _ _ b3 (fun a _ => rfl),
    fieldIs_of_last ss hnd _ _ _ _ _ b4 (fun a _ => rfl),
    fieldIs_of_last ss hnd _ _ _ _ _ b5 (fun a ha => ?_),
    fieldIs_of_last ss hnd _ _ _ _ _ b6 (fun a ha => ?_),
    fieldIs_of_last ss hnd _ _ _ _ _ b7 (fun a ha => ?_),
    fieldIs_of_last ss hnd _ _ _ _ _ b8 (fun a ha => ?_),
    fieldIs_of_last ss hnd _ _ _ _ _ b9 (fun a ha => ?_),
    fieldIs_of_last ss hnd _ _ _ _ _ b10 (fun a ha => ?_)⟩
  · obtain ⟨v, hv, hp⟩ := ParseInt_valid a (by simpa [WellFormedToken] using hwf _ ha)
    simp [hv, hp]
  · have hv : validUint 32 a := by simpa [WellFormedToken] using hwf _ ha
    have hle : decimalValue a ≤ 2 ^ 32 - 1 := hv.2.2
    rw [ParseUint_valid a 32 (by norm_num) hv]
    norm_num at hle ⊢
    omega
  · have hv : a ≠ [] := by simpa [WellFormedToken] using hwf _ ha
    cases a with
    | nil => exact absurd rfl hv
    | cons c r => simp
  · have hv : validUint 64 a := by simpa [WellFormedToken] using hwf _ ha
    rw [ParseUint_valid a 64 (le_refl _) hv]
  · have hv : validUint 64 a := by simpa [WellFormedToken] using hwf _ ha
    rw [ParseUint_valid a 64 (le_refl _) hv]
  · have hv : validUint 64 a := by simpa [WellFormedToken] using hwf _ ha
    rw [ParseUint_valid a 64 (le_refl _) hv]

/-! ## The parser: panics and early returns -/

theorem obtainLoop_cons_panic (f : GoString) (rest : List GoString) (mr : MetaResult)
    (err : Option GoError) (h : obtainStep f mr err = .panic) :
    obtainLoop (f :: rest) mr err = none := by
  simp only [obtainLoop, h]

theorem obtainLoop_cons_ret (f : GoString) (rest : List GoString) (mr mr1 : MetaResult)
    (err err1 : Option GoError) (h : obtainStep f mr err = .ret mr1 err1) :
    obtainLoop (f :: rest) mr err = some (mr1, err1) := by
  simp only [obtainLoop, h]

theorem obtainStep_nil (mr : MetaResult) (err : Option GoError) :
    obtainStep [] mr err = .panic := rfl

/-- A malformed `f` token leaves the loop with the record as it stands and the error of
`ParseUint`. -/
theorem obtainStep_f_malformed (a : GoString) (mr : MetaResult) (err : Option GoError)
    (ha : ¬ validUint 32 a) :
    ∃ e, (ParseUint a 32).2 = some e ∧
      obtainStep ('f' :: a) mr err = .ret mr (some (GoError.num e)) := by
  cases hp : (ParseUint a 32).2 with
  | none => exact absurd ((ParseUint_ok_iff a 32 (by norm_num)).1 hp) ha
  | some e => exact ⟨e, rfl, by rw [obtainStep_f, hp]⟩

/-- A well-formed `f` token sets `Flags` to the value of its argument and leaves the
error alone. -/
theorem obtainStep_f_valid (a : GoString) (mr : MetaResult) (err : Option GoError)
    (ha : validUint 32 a) :
    obtainStep ('f' :: a) mr err = .next { mr with Flags := decimalValue a } err := by
  have hle : decimalValue a ≤ 2 ^ 32 - 1 := ha.2.2
  have hm : decimalValue a % 2 ^ 32 = decimalValue a := by
    norm_num at hle ⊢
    omega
  rw [obtainStep_f, ParseUint_valid a 32 (by norm_num) ha]
  simp only [hm]

/-- The three ways of not getting past a token. -/
theorem not_processable_cases (f : GoString) (h : ¬ Processable f) :
    f = [] ∨ f = ['h'] ∨ ∃ a, f = 'f' :: a ∧ ¬ validUint 32 a := by
  cases f with
  | nil => left; rfl
  | cons k v =>
    by_cases hh : k = 'h'
    · subst hh
      cases v with
      | nil => right; left; rfl
      | cons v0 vs => exact absurd (show Processable ('h' :: v0 :: vs) from
          ⟨fun _ => by simp, fun h => by simp at h⟩) h
    · by_cases hf : k = 'f'
      · subst hf
        right; right
        exact ⟨v, rfl, fun hv => h ⟨fun h => by simp at h, fun _ => hv⟩⟩
      · exact absurd (show Processable (k :: v) from
          ⟨fun h => absurd h hh, fun h => absurd h hf⟩) h

/-- An index-safe token is got past unless it is a malformed `f` token. -/
theorem IndexSafe.processable_or (f : GoString) (h : IndexSafe f) :
    Processable f ∨ ∃ a, f = 'f' :: a ∧ ¬ validUint 32 a := by
  by_cases hp : Processable f
  · left; exact hp
  · rcases not_processable_cases f hp with rfl | rfl | h3
    · exact absurd h.1 (by simp)
    · exact absurd (h.2 rfl) (by simp)
    · right; exact h3

/-- Over index-safe tokens the loop returns, from any state. -/
theorem obtainLoop_returns (ss : List GoString) (mr : MetaResult) (err : Option GoError)
    (h : ∀ f ∈ ss, IndexSafe f) : ∃ mr1 err1, obtainLoop ss mr err = some (mr1, err1) := by
  induction ss generalizing mr err with
  | nil => exact ⟨mr, err, rfl⟩
  | cons f rest ih =>
    rcases IndexSafe.processable_or f (h f (by simp)) with hp | ⟨a, rfl, ha⟩
    · obtain ⟨mr1, err1, hs, _⟩ := obtainStep_next f mr err hp
      rw [obtainLoop_cons_next f rest mr mr1 err err1 hs]
      exact ih mr1 err1 (fun g hg => h g (by simp [hg]))
    · obtain ⟨e, _, hs⟩ := obtainStep_f_malformed a mr err ha
      exact ⟨mr, _, obtainLoop_cons_ret _ rest mr mr err _ hs⟩

/-! ## The parser: the error variable -/

theorem tokenError_of_step (f : GoString) (mr1 : MetaResult) (e : Option GoError)
    (h : obtainStep f {} none = .next mr1 e) : tokenError f = e := by
  simp only [tokenError, obtainMetaFlagsResults, obtainLoop, h]

theorem lastErrKeyed_nil : lastErrKeyed [] = none := rfl

theorem lastErrKeyed_single (f : GoString) :
    lastErrKeyed [f] = if errKeyed f = true then some f else none := by
  by_cases h : errKeyed f = true <;> simp [lastErrKeyed, List.filter, h]

theorem lastErrKeyed_cons (f : GoString) (rest : List GoString) :
    lastErrKeyed (f :: rest) = (lastErrKeyed rest).orElse (fun _ => lastErrKeyed [f]) := by
  unfold lastErrKeyed
  by_cases h : errKeyed f = true
  · simp only [List.filter_cons, h, if_true, List.filter_nil]
    rw [getLast?_cons_orElse]
    cases (rest.filter errKeyed).getLast? <;> simp
  · simp only [List.filter_cons, h, Bool.false_eq_true, if_false, List.filter_nil]
    generalize (rest.filter errKeyed).getLast? = o
    cases o <;> simp

theorem lastErrKeyed_mem (ss : List GoString) (f : GoString) (h : lastErrKeyed ss = some f) :
    f ∈ ss ∧ errKeyed f = true := by
  have hm := List.mem_of_getLast?_eq_some h
  rw [List.mem_filter] at hm
  exact hm

/-- One pass of the loop over a token it gets past: a token with key `c`, `l`, `s`, `t` or
an unrecognized key sets the error to its own outcome, any other token leaves it. -/
theorem obtainStep_err (f : GoString) (mr : MetaResult) (err : Option GoError)
    (hp : Processable f) :
    ∃ mr1, obtainStep f mr err =
      .next mr1 (((lastErrKeyed [f]).map tokenError).getD err) := by
  rw [lastErrKeyed_single]
  cases f with
  | nil => exact hp.elim
  | cons k v =>
    obtain ⟨hh, hf⟩ := hp
    by_cases hk : knownKey k
    · rcases hk with h | h | h | h | h | h | h | h | h | h | h <;> subst h
      · exact ⟨_, obtainStep_W _ _ _⟩
      · exact ⟨_, obtainStep_Z _ _ _⟩
      · exact ⟨_, obtainStep_X _ _ _⟩
      · exact ⟨_, obtainStep_k _ _ _⟩
      · exact ⟨_, obtainStep_O _ _ _⟩
      · refine ⟨{ mr with CasToken := { value := (ParseInt v 64).1, setted := true } }, ?_⟩
        rw [obtainStep_c, if_pos (show errKeyed ('c' :: v) = true from rfl)]
        simp only [Option.map_some', Option.getD_some,
          tokenError_of_step _ _ _ (obtainStep_c v {} none)]
      · exact ⟨_, obtainStep_f_valid v mr err (hf rfl)⟩
      · cases v with
        | nil => exact absurd rfl (hh rfl)
        | cons v0 vs => exact ⟨_, obtainStep_h _ _ _ _⟩
      · refine ⟨{ mr with LastAccess := (ParseUint v 64).1 }, ?_⟩
        rw [obtainStep_l, if_pos (show errKeyed ('l' :: v) = true from rfl)]
        simp only [Option.map_some', Option.getD_some,
          tokenError_of_step _ _ _ (obtainStep_l v {} none)]
      · refine ⟨{ mr with Size := (ParseUint v 64).1 }, ?_⟩
        rw [obtainStep_s, if_pos (show errKeyed ('s' :: v) = true from rfl)]
        simp only [Option.map_some', Option.getD_some,
          tokenError_of_step _ _ _ (obtainStep_s v {} none)]
      · refine ⟨{ mr with TTL := (ParseUint v 64).1 }, ?_⟩
        rw [obtainStep_t, if_pos (show errKeyed ('t' :: v) = true from rfl)]
        simp only [Option.map_some', Option.getD_some,
          tokenError_of_step _ _ _ (obtainStep_t v {} none)]
    · refine ⟨mr, ?_⟩
      have he : errKeyed (k :: v) = true := by simp [errKeyed, hk]
      rw [obtainStep_default k v mr err hk, if_pos he]
      simp only [Option.map_some', Option.getD_some,
        tokenError_of_step _ _ _ (obtainStep_default k v {} none hk)]

/-- Over tokens the loop gets past, the error at the end is the outcome of the last token
that assigns the error, and the starting error when there is none. -/
theorem obtainLoop_err (p : List GoString) (mr : MetaResult) (err : Option GoError)
    (hp : ∀ f ∈ p, Processable f) :
    ∃ mr1, ∀ q, obtainLoop (p ++ q) mr err =
      obtainLoop q mr1 (((lastErrKeyed p).map tokenError).getD err) := by
  induction p generalizing mr err with
  | nil => exact ⟨mr, fun q => rfl⟩
  | cons f rest ih =>
    obtain ⟨mr1, hs⟩ := obtainStep_err f mr err (hp f (by simp))
    obtain ⟨mr2, hq⟩ := ih mr1 (((lastErrKeyed [f]).map tokenError).getD err)
      (fun g hg => hp g (by simp [hg]))
    refine ⟨mr2, fun q => ?_⟩
    rw [List.cons_append, obtainLoop_cons_next f _ mr mr1 err _ hs, hq q,
      lastErrKeyed_cons f rest]
    congr 1
    exact getD_compose tokenError _ _ err _ _ rfl rfl

/-- The outcome of a token that assigns the error is an error exactly for a bad token. -/
theorem tokenError_ne_none_iff (f : GoString) (h : errKeyed f = true) :
    tokenError f ≠ none ↔ BadToken f := by
  cases f with
  | nil => simp [errKeyed] at h
  | cons k v =>
    by_cases hk : knownKey k
    · have h4 : k = 'c' ∨ k = 'l' ∨ k = 's' ∨ k = 't' := by
        simpa [errKeyed, hk] using h
      have hu : (Option.map GoError.num (ParseUint v 64).2 ≠ none) ↔ ¬ validUint 64 v := by
        rw [← ParseUint_ok_iff v 64 (le_refl _)]
        cases (ParseUint v 64).2 <;> simp
      rcases h4 with rfl | rfl | rfl | rfl
      · rw [tokenError_of_step _ _ _ (obtainStep_c v {} none)]
        simp only [BadToken]
        rcases ParseInt_spec v with ⟨x, h1, h2, h3, h4⟩ | ⟨hn, e, he⟩
        · have hv : validInt64 v := by simp only [validInt64, h1]; exact ⟨h2, h3⟩
          simp [h4, hv, knownKey]
        · simp [he, hn]
      · rw [tokenError_of_step _ _ _ (obtainStep_l v {} none), hu]
        simp [BadToken, knownKey]
      · rw [tokenError_of_step _ _ _ (obtainStep_s v {} none), hu]
        simp [BadToken, knownKey]
      · rw [tokenError_of_step _ _ _ (obtainStep_t v {} none), hu]
        simp [BadToken, knownKey]
    · rw [tokenError_of_step _ _ _ (obtainStep_default k v {} none hk)]
      simp [BadToken, hk]

/-! ## The parser: the CAS presence marker -/

/-- One pass of the loop never clears the presence marker, changes `CasToken` only on a
`c` token, and returns the record as it stands when it leaves through `return`. -/
theorem obtainStep_casToken (f : GoString) (mr : MetaResult) (err : Option GoError) :
    (∀ mr1 e1, obtainStep f mr err = .next mr1 e1 →
      (mr.CasToken.setted = true → mr1.CasToken.setted = true) ∧
      (f.head? ≠ some 'c' → mr1.CasToken = mr.CasToken)) ∧
    (∀ mr1 e1, obtainStep f mr err = .ret mr1 e1 → mr1 = mr) := by
  cases f with
  | nil => rw [obtainStep_nil]; exact ⟨fun mr1 e1 h => (by cases h), fun mr1 e1 h => (by cases h)⟩
  | cons k v =>
    by_cases hk : knownKey k
    · rcases hk with h | h | h | h | h | h | h | h | h | h | h <;> subst h
      · rw [obtainStep_W]; exact ⟨fun mr1 e1 h => (by cases h; simp), fun mr1 e1 h => (by cases h)⟩
      · rw [obtainStep_Z]; exact ⟨fun mr1 e1 h => (by cases h; simp), fun mr1 e1 h => (by cases h)⟩
      · rw [obtainStep_X]; exact ⟨fun mr1 e1 h => (by cases h; simp), fun mr1 e1 h => (by cases h)⟩
      · rw [obtainStep_k]; exact ⟨fun mr1 e1 h => (by cases h; simp), fun mr1 e1 h => (by cases h)⟩
      · rw [obtainStep_O]; exact ⟨fun mr1 e1 h => (by cases h; simp), fun mr1 e1 h => (by cases h)⟩
      · rw [obtainStep_c]; exact ⟨fun mr1 e1 h => (by cases h; simp), fun mr1 e1 h => (by cases h)⟩
      · rw [obtainStep_f]
        cases (ParseUint v 32).2 with
        | none => exact ⟨fun mr1 e1 h => (by cases h; simp), fun mr1 e1 h => (by cases h)⟩
        | some e => exact ⟨fun mr1 e1 h => (by cases h), fun mr1 e1 h => (by cases h; rfl)⟩
      · cases v with
        | nil => rw [obtainStep_h_nil]; exact ⟨fun mr1 e1 h => (by cases h), fun mr1 e1 h => (by cases h)⟩
        | cons v0 vs => rw [obtainStep_h]; exact ⟨fun mr1 e1 h => (by cases h; simp), fun mr1 e1 h => (by cases h)⟩
      · rw [obtainStep_l]; exact ⟨fun mr1 e1 h => (by cases h; simp), fun mr1 e1 h => (by cases h)⟩
      · rw [obtainStep_s]; exact ⟨fun mr1 e1 h => (by cases h; simp), fun mr1 e1 h => (by cases h)⟩
      · rw [obtainStep_t]; exact ⟨fun mr1 e1 h => (by cases h; simp), fun mr1 e1 h => (by cases h)⟩
    · rw [obtainStep_default k v mr err hk]
      exact ⟨fun mr1 e1 h => (by cases h; simp), fun mr1 e1 h => (by cases h)⟩

/-- Whatever the loop returns, the presence marker set at the start is still set, and
`CasToken` is the one of the start when no token of the list has key `c`. -/
theorem obtainLoop_casToken (ss : List GoString) (mr mr1 : MetaResult)
    (err err1 : Option GoError) (h : obtainLoop ss mr err = some (mr1, err1)) :
    (mr.CasToken.setted = true → mr1.CasToken.setted = true) ∧
    ((∀ f ∈ ss, f.head? ≠ some 'c') → mr1.CasToken = mr.CasToken) := by
  induction ss generalizing mr err with
  | nil =>
    simp only [obtainLoop, Option.some.injEq, Prod.mk.injEq] at h
    rw [← h.1]
    exact ⟨fun hs => hs, fun _ => rfl⟩
  | cons f rest ih =>
    have hst := obtainStep_casToken f mr err
    cases hs : obtainStep f mr err with
    | next mr2 e2 =>
      rw [obtainLoop_cons_next f rest mr mr2 err e2 hs] at h
      obtain ⟨i1, i2⟩ := ih mr2 e2 h
      obtain ⟨s1, s2⟩ := hst.1 mr2 e2 hs
      refine ⟨fun hset => i1 (s1 hset), fun hno => ?_⟩
      rw [i2 (fun g hg => hno g (by simp [hg])), s2 (hno f (by simp))]
    | ret mr2 e2 =>
      rw [obtainLoop_cons_ret f rest mr mr2 err e2 hs] at h
      simp only [Option.some.injEq, Prod.mk.injEq] at h
      have := hst.2 mr2 e2 hs
      rw [← h.1, this]
      exact ⟨fun hset => hset, fun _ => rfl⟩
    | panic =>
      rw [obtainLoop_cons_panic f rest mr err hs] at h
      cases h

/-- When the call returns and no `f` token of the first part is malformed, the loop has
got past every token of the first part. -/
theorem processable_of_returns (pre rest : List GoString) (mr : MetaResult)
    (err : Option GoError) (r : MetaResult × Option GoError)
    (h : obtainLoop (pre ++ rest) mr err = some r)
    (hf : ∀ f ∈ pre, f.head? = some 'f' → validUint 32 f.tail) :
    ∀ f ∈ pre, Processable f := by
  induction pre generalizing mr err with
  | nil => simp
  | cons f pre1 ih =>
    have hpf : Processable f := by
      by_contra hnp
      rcases not_processable_cases f hnp with rfl | rfl | ⟨a, rfl, ha⟩
      · rw [List.cons_append, obtainLoop_cons_panic _ _ mr err (obtainStep_nil mr err)] at h
        cases h
      · rw [List.cons_append, obtainLoop_cons_panic _ _ mr err (obtainStep_h_nil mr err)] at h
        cases h
      · exact ha (hf ('f' :: a) (by simp) rfl)
    obtain ⟨mr1, err1, hs, _⟩ := obtainStep_next f mr err hpf
    rw [List.cons_append, obtainLoop_cons_next f _ mr mr1 err err1 hs] at h
    intro g hg
    rcases List.mem_cons.1 hg with rfl | hg
    · exact hpf
    · exact ih mr1 err1 h (fun x hx => hf x (by simp [hx])) g hg

/-! ## The builder: spaces in the output -/

theorem no_space_chain (t : GoString) (h : ' ' ∉ t) :
    List.Chain' (fun a b : Char => ¬ (a = ' ' ∧ b = ' ')) t := by
  induction t with
  | nil => exact List.chain'_nil
  | cons a l ih =>
    have ha : a ≠ ' ' := fun e => h (by simp [e])
    exact List.chain'_cons'.2 ⟨fun y _ hy => ha hy.1, ih (fun hm => h (by simp [hm]))⟩

theorem head?_ne_of_not_mem (t : GoString) (c : Char) (h : c ∉ t) : t.head? ≠ some c := by
  cases t with
  | nil => simp
  | cons a l =>
    intro e
    apply h
    simp only [List.head?_cons, Option.some.injEq] at e
    simp [e]

theorem getLast?_ne_of_not_mem (t : GoString) (c : Char) (h : c ∉ t) :
    t.getLast? ≠ some c :=
  fun e => h (List.mem_of_getLast?_eq_some e)

/-- Non-empty tokens without space or newline, joined with single spaces, give a string
that does not start or end with a space, has no two adjacent spaces and no newline. -/
theorem intercalate_clean (toks : List GoString) (hne : toks ≠ [])
    (h : ∀ t ∈ toks, t ≠ [] ∧ ' ' ∉ t ∧ '\n' ∉ t) :
    [' '].intercalate toks ≠ [] ∧ ([' '].intercalate toks).head? ≠ some ' ' ∧
    ([' '].intercalate toks).getLast? ≠ some ' ' ∧
    List.Chain' (fun a b : Char => ¬ (a = ' ' ∧ b = ' ')) ([' '].intercalate toks) ∧
    '\n' ∉ [' '].intercalate toks := by
  induction toks with
  | nil => exact absurd rfl hne
  | cons e rest ih =>
    obtain ⟨he1, he2, he3⟩ := h e (by simp)
    cases rest with
    | nil =>
      have hs : [' '].intercalate [e] = e := by simp [List.intercalate]
      rw [hs]
      exact ⟨he1, head?_ne_of_not_mem e ' ' he2, getLast?_ne_of_not_mem e ' ' he2,
        no_space_chain e he2, he3⟩
    | cons x xs =>
      obtain ⟨i1, i2, i3, i4, i5⟩ := ih (by simp) (fun t ht => h t (by simp [ht]))
      rw [intercalate_cons_cons, List.append_assoc, List.singleton_append]
      generalize [' '].intercalate (x :: xs) = S at i1 i2 i3 i4 i5
      refine ⟨by simp [he1], ?_, ?_, ?_, ?_⟩
      · rw [List.head?_append_of_ne_nil e he1]
        exact head?_ne_of_not_mem e ' ' he2
      · have hl : (' ' :: S).getLast? = S.getLast? := List.getLast?_append_of_ne_nil [' '] i1
        rw [List.getLast?_append_of_ne_nil e (by simp), hl]
        exact i3
      · refine List.Chain'.append (no_space_chain e he2) ?_ ?_
        · exact List.chain'_cons'.2 ⟨fun y hy hc => i2 (by rw [Option.mem_def.1 hy, hc.2]), i4⟩
        · intro a ha b _ hc
          exact he2 (hc.1 ▸ List.mem_of_getLast?_eq_some (Option.mem_def.1 ha))
      · simp only [List.mem_append, List.mem_cons, not_or]
        exact ⟨he3, by decide, i5⟩

theorem digits_clean (t : GoString) (h : t.all Char.isDigit = true) :
    ' ' ∉ t ∧ '\n' ∉ t := by
  rw [List.all_eq_true] at h
  exact ⟨fun hm => absurd (h _ hm) (by decide), fun hm => absurd (h _ hm) (by decide)⟩

theorem FormatUint_clean (n : Nat) : ' ' ∉ FormatUint n ∧ '\n' ∉ FormatUint n :=
  digits_clean _ (FormatUint_spec n).2.1

theorem FormatInt_clean (n : Int) (h1 : -2 ^ 63 ≤ n) (h2 : n ≤ 2 ^ 63 - 1) :
    ' ' ∉ FormatInt n ∧ '\n' ∉ FormatInt n := by
  rw [FormatInt_eq n h1 h2]
  split
  · have := FormatUint_clean n.natAbs
    simp only [List.mem_cons, not_or]
    exact ⟨⟨by decide, this.1⟩, ⟨by decide, this.2⟩⟩
  · exact FormatUint_clean n.toNat

/-- The token of a directive is not empty and holds neither a space nor a newline, when
the string argument of `withOpaque` and `withMode` holds no whitespace. -/
theorem Directive.token_clean (f : metaFlag) (hd : Directive f)
    (hs : ∀ token, f = withOpaque token ∨ f = withMode token →
      ∀ c ∈ token, c.isWhitespace = false) :
    f.k ++ f.i ≠ [] ∧ ' ' ∉ f.k ++ f.i ∧ '\n' ∉ f.k ++ f.i := by
  have hws : ∀ token : GoString, (∀ c ∈ token, c.isWhitespace = false) →
      ' ' ∉ token ∧ '\n' ∉ token := fun token h =>
    ⟨fun hm => absurd (h _ hm) (by decide), fun hm => absurd (h _ hm) (by decide)⟩
  cases hd with
  | ofOpaque token =>
    have := hws token (hs token (Or.inl rfl))
    simp [withOpaque, this]
  | ofMode token =>
    have := hws token (hs token (Or.inr rfl))
    simp [withMode, this]
  | ofVivify n _ => simp [withVivify, FormatUint_clean n]
  | ofRecache n _ => simp [withRecache, FormatUint_clean n]
  | ofSetTTL n _ => simp [withSetTTL, FormatUint_clean n]
  | ofSetFlag n _ => simp [withSetFlag, FormatUint_clean n]
  | ofInitialValue n _ => simp [withInitialValue, FormatUint_clean n]
  | ofDelta n _ => simp [withDelta, FormatUint_clean n]
  | ofCompareCAS n h1 h2 =>
    have := FormatInt_clean n h1 (by omega)
    simp [withCompareCAS, this]
  | ofBinary => simp [withBinary]
  | ofCAS => simp [withCAS]
  | ofFlag => simp [withFlag]
  | ofHit => simp [withHit]
  | ofLastAccess => simp [withLastAccess]
  | ofQuiet => simp [withQuiet]
  | ofSize => simp [withSize]
  | ofTTL => simp [withTTL]
  | ofNoBump => simp [withNoBump]
  | ofValue => simp [withValue]
  | ofSetInvalid => simp [withSetInvalid]

/-! ## Decoding the formatted numbers -/

theorem DecimalText.validUint (n : Nat) (t : GoString) (w : Nat) (h : DecimalText n t)
    (hn : n ≤ 2 ^ w - 1) : validUint w t ∧ decimalValue t = n :=
  ⟨⟨h.1, h.2.1, by rw [h.2.2.1]; exact hn⟩, h.2.2.1⟩

theorem signedDecimal_digits (d : GoString) (h1 : d ≠ []) (h2 : d.all Char.isDigit = true) :
    signedDecimal d = some (decimalValue d : Int) := by
  cases d with
  | nil => exact absurd rfl h1
  | cons c r =>
    have hc : c.isDigit = true := by
      simp only [List.all_cons, Bool.and_eq_true] at h2
      exact h2.1
    have hp : c ≠ '+' := fun e => absurd (e ▸ hc) (by decide)
    have hm : c ≠ '-' := fun e => absurd (e ▸ hc) (by decide)
    simp only [signedDecimal, hp, hm, if_false, h2, if_true]

theorem signedDecimal_neg (d : GoString) (h1 : d ≠ []) (h2 : d.all Char.isDigit = true) :
    signedDecimal ('-' :: d) = some (-(decimalValue d : Int)) := by
  have hne : ¬ ('-' = '+') := by decide
  simp only [signedDecimal, hne, if_false, if_true, h1, h2, ne_eq, not_false_eq_true, and_self]

/-- `ParseInt` reads back what `FormatInt` writes. -/
theorem ParseInt_FormatInt (n : Int) (h1 : -2 ^ 63 ≤ n) (h2 : n ≤ 2 ^ 63 - 1) :
    ParseInt (FormatInt n) 64 = (n, none) := by
  have hsd : signedDecimal (FormatInt n) = some n := by
    rw [FormatInt_eq n h1 h2]
    split
    · obtain ⟨a1, a2, a3, _⟩ := FormatUint_spec n.natAbs
      rw [signedDecimal_neg _ a1 a2, a3]
      congr 1
      omega
    · obtain ⟨a1, a2, a3, _⟩ := FormatUint_spec n.toNat
      rw [signedDecimal_digits _ a1 a2, a3]
      congr 1
      omega
  have hv : validInt64 (FormatInt n) := by
    simp only [validInt64, hsd]
    exact ⟨h1, h2⟩
  obtain ⟨v, e1, e2⟩ := ParseInt_valid _ hv
  rw [hsd] at e1
  cases e1
  exact e2

/-- `ParseUint` reads back what `FormatUint` writes, within the width. -/
theorem ParseUint_FormatUint (n w : Nat) (hw : w ≤ 64) (hn : n ≤ 2 ^ w - 1) :
    ParseUint (FormatUint n) w = (n, none) := by
  obtain ⟨hv, he⟩ := DecimalText.validUint n _ w (FormatUint_spec n) hn
  rw [ParseUint_valid _ w hw hv, he]

end MetaFlags

/-! # The claims -/

namespace MetaFlags

/-- C1: for every list of directives, the empty one included, `buildMetaFlags` returns
the tokens key+argument of the directives, in the order of the input, joined with one
space: nothing is sorted, deduplicated or dropped. `[withCAS(), withTTL()]` gives
`c t` and `[withTTL(), withCAS()]` gives `t c`. -/
theorem buildMetaFlags_joins_tokens :
    (∀ fs : List metaFlag,
      buildMetaFlags fs = [' '].intercalate (fs.map (fun f => f.k ++ f.i))) ∧
    buildMetaFlags [] = [] ∧
    buildMetaFlags [withCAS, withTTL] = "c t".toList ∧
    buildMetaFlags [withTTL, withCAS] = "t c".toList :=
  ⟨buildMetaFlags_eq, by decide, by decide, by decide⟩

/-- C3 (the code at the failing input): the token `tx` has a malformed numeric argument,
yet parsing `tx` followed by `t1` returns the nil error, with `TTL = 1`: the error of the
first token is overwritten by the successful parse of the second. -/
theorem bad_token_error_overwritten :
    (∀ f ∈ ["tx".toList, "t1".toList], f ≠ []) ∧
    ¬ validUint 64 "x".toList ∧
    obtainMetaFlagsResults ["tx".toList] =
      some ({}, some (.num (syntaxError "ParseUint" "x".toList))) ∧
    obtainMetaFlagsResults ["tx".toList, "t1".toList] = some ({ TTL := 1 }, none) := by
  refine ⟨by decide, ?_, by decide, by decide⟩
  intro h
  have := h.2.1
  revert this
  decide

/-- C4 (the code at the failing input): parsing the prefix that ends at the bad token
`tx` returns the zero record and a syntax error, while parsing `tx` followed by `s5`
returns a record with `Size = 5` and the nil error: the token after the bad one is
processed, changes a field and replaces the error. -/
theorem tokens_after_bad_token_processed :
    obtainMetaFlagsResults ["tx".toList] =
      some ({}, some (.num (syntaxError "ParseUint" "x".toList))) ∧
    obtainMetaFlagsResults ["tx".toList, "s5".toList] = some ({ Size := 5 }, none) ∧
    obtainMetaFlagsResults ["Q".toList, "W".toList] =
      some ({ Won := true }, some (invalidFlag 'Q')) := by
  refine ⟨by decide, by decide, by decide⟩

theorem obtain_single_uint (k : Char) (a : GoString) (w : Nat) (hw : w ≤ 64)
    (upd : Nat → MetaResult)
    (hstep : obtainStep (k :: a) {} none =
      .next (upd (ParseUint a w).1) ((ParseUint a w).2.map GoError.num)) :
    (validUint w a ∧
        obtainMetaFlagsResults [k :: a] = some (upd (decimalValue a), none)) ∨
    (¬ validUint w a ∧ ∃ mr e, obtainMetaFlagsResults [k :: a] = some (mr, some e)) := by
  have hr : obtainMetaFlagsResults [k :: a] =
      some (upd (ParseUint a w).1, (ParseUint a w).2.map GoError.num) := by
    simp only [obtainMetaFlagsResults, obtainLoop, hstep]
  rcases ParseUint_spec a w hw with ⟨hv, he⟩ | ⟨hn, he | he⟩
  · left; exact ⟨hv, by rw [hr, he]; rfl⟩
  · right; exact ⟨hn, _, _, by rw [hr, he]; rfl⟩
  · right; exact ⟨hn, _, _, by rw [hr, he]; rfl⟩

/-- C6: numeric fields are decoded in base 10 into the stated width. For every argument
text `a`: parsing the single token `f`+`a` succeeds exactly when `a` is a non-empty
string of decimal digits of value at most `2^32 - 1`, and `Flags` is then that value;
`l`+`a`, `s`+`a`, `t`+`a` succeed exactly when `a` is a non-empty digit string of value at
most `2^64 - 1`, and `LastAccess`, `Size`, `TTL` is then that value; `c`+`a` succeeds
exactly when `a` is an optionally signed non-empty digit string of value in
`[-2^63, 2^63 - 1]`, and the CAS value is then that value. In every other case the
call returns an error, as for `ttoken` and `f4294967296`. -/
theorem numeric_fields_base10 (a : GoString) :
    ((validUint 32 a ∧
        obtainMetaFlagsResults ['f' :: a] = some ({ Flags := decimalValue a }, none)) ∨
      (¬ validUint 32 a ∧ ∃ mr e, obtainMetaFlagsResults ['f' :: a] = some (mr, some e))) ∧
    ((validUint 64 a ∧
        obtainMetaFlagsResults ['l' :: a] = some ({ LastAccess := decimalValue a }, none)) ∨
      (¬ validUint 64 a ∧ ∃ mr e, obtainMetaFlagsResults ['l' :: a] = some (mr, some e))) ∧
    ((validUint 64 a ∧
        obtainMetaFlagsResults ['s' :: a] = some ({ Size := decimalValue a }, none)) ∨
      (¬ validUint 64 a ∧ ∃ mr e, obtainMetaFlagsResults ['s' :: a] = some (mr, some e))) ∧
    ((validUint 64 a ∧
        obtainMetaFlagsResults ['t' :: a] = some ({ TTL := decimalValue a }, none)) ∨
      (¬ validUint 64 a ∧ ∃ mr e, obtainMetaFlagsResults ['t' :: a] = some (mr, some e))) ∧
    ((∃ v : Int, signedDecimal a = some v ∧ -2 ^ 63 ≤ v ∧ v ≤ 2 ^ 63 - 1 ∧
        obtainMetaFlagsResults ['c' :: a] =
          some ({ CasToken := { value := v, setted := true } }, none)) ∨
      (¬ validInt64 a ∧ ∃ mr e, obtainMetaFlagsResults ['c' :: a] = some (mr, some e))) ∧
    (∃ mr e, obtainMetaFlagsResults ["ttoken".toList] = some (mr, some e)) ∧
    (∃ mr e, obtainMetaFlagsResults ["f4294967296".toList] = some (mr, some e)) := by
  refine ⟨?_, ?_, ?_, ?_, ?_,
    ⟨{}, .num (syntaxError "ParseUint" "token".toList), by decide⟩,
    ⟨{}, .num (rangeError "ParseUint" "4294967296".toList), by decide⟩⟩
  · have hr : obtainMetaFlagsResults ['f' :: a] =
        match (ParseUint a 32).2 with
        | some e => some ({}, some (GoError.num e))
        | none => some ({ Flags := (ParseUint a 32).1 % 2 ^ 32 }, none) := by
      simp only [obtainMetaFlagsResults, obtainLoop, obtainStep_f]
      cases (ParseUint a 32).2 <;> rfl
    rcases ParseUint_spec a 32 (by norm_num) with ⟨hv, he⟩ | ⟨hn, he | he⟩
    · left
      refine ⟨hv, ?_⟩
      have hle : decimalValue a ≤ 2 ^ 32 - 1 := hv.2.2
      have hm : decimalValue a % 2 ^ 32 = decimalValue a := by
        norm_num at hle ⊢
        omega
      rw [hr, he]
      simp only [hm]
    · right; exact ⟨hn, _, _, by rw [hr, he]⟩
    · right; exact ⟨hn, _, _, by rw [hr, he]⟩
  · exact obtain_single_uint 'l' a 64 (le_refl _) (fun n => { LastAccess := n })
      (obtainStep_l a {} none)
  · exact obtain_single_uint 's' a 64 (le_refl _) (fun n => { Size := n })
      (obtainStep_s a {} none)
  · exact obtain_single_uint 't' a 64 (le_refl _) (fun n => { TTL := n })
      (obtainStep_t a {} none)
  · have hr : obtainMetaFlagsResults ['c' :: a] =
        some ({ CasToken := { value := (ParseInt a 64).1, setted := true } },
          (ParseInt a 64).2.map GoError.num) := by
      simp only [obtainMetaFlagsResults, obtainLoop, obtainStep_c]
    rcases ParseInt_spec a with ⟨v, h1, h2, h3, h4⟩ | ⟨hn, e, he⟩
    · left; exact ⟨v, h1, h2, h3, by rw [hr, h4]; rfl⟩
    · right; exact ⟨hn, _, .num e, by rw [hr, he]; rfl⟩

/-- C7: a non-empty token whose first character `k` is not one of
`W Z X k O c f h l s t` makes the parse of the list holding just that token fail with
the invalid-flag error, whose message is `Invalid flag: ` followed by `k`; the same
error is returned when the token is the last one of a list of otherwise well-formed
tokens (the record is then the one of those tokens). -/
theorem unknown_key_invalid_flag (k : Char) (v : GoString) (hk : ¬ knownKey k) :
    obtainMetaFlagsResults [k :: v] =
      some ({}, some (.errorString ("Invalid flag: ".push k))) ∧
    ∀ p : List GoString, (∀ f ∈ p, WellFormedToken f) →
      ∃ mr, obtainMetaFlagsResults p = some (mr, none) ∧
        obtainMetaFlagsResults (p ++ [k :: v]) =
          some (mr, some (.errorString ("Invalid flag: ".push k))) := by
  have hs : ∀ mr err, obtainLoop [k :: v] mr err = some (mr, some (invalidFlag k)) := by
    intro mr err
    simp only [obtainLoop, obtainStep_default k v mr err hk]
  refine ⟨hs {} none, fun p hp => ?_⟩
  obtain ⟨mr, hq, _⟩ := obtainLoop_wellFormed p {} hp
  refine ⟨mr, ?_, ?_⟩
  · have := hq []
    simpa [obtainMetaFlagsResults, obtainLoop] using this
  · unfold obtainMetaFlagsResults
    rw [hq, hs mr none]
    rfl

/-- C7 at the key `Q`: the message is `Invalid flag: Q`, alone and after the
well-formed tokens `W`, `t30`. -/
theorem unknown_key_invalid_flag_witness :
    ¬ knownKey 'Q' ∧
    obtainMetaFlagsResults ["Q".toList] = some ({}, some (.errorString "Invalid flag: Q")) ∧
    obtainMetaFlagsResults ["W".toList, "t30".toList, "Q".toList] =
      some ({ Won := true, TTL := 30 }, some (.errorString "Invalid flag: Q")) := by
  have hk : ¬ knownKey 'Q' := by simp [knownKey]
  have h := unknown_key_invalid_flag 'Q' [] hk
  refine ⟨hk, h.1, ?_⟩
  decide

/-- C9: constructor serialization. `withOpaque(s)` builds `O` followed by `s`; for a
32-bit unsigned `n`, `withSetFlag(n)` builds `F` followed by the base-10 text of `n`
(digits only, no leading zero, `0` for zero, no sign); for a signed 64-bit `n`,
`withCompareCAS(n)` builds `C` followed by the base-10 text of `n`, with a leading `-`
exactly when `n` is negative. So `abc123` gives `Oabc123`, 42 gives `F42` and -7 gives
`C-7`. -/
theorem constructor_serialization :
    (∀ s : GoString, buildMetaFlags [withOpaque s] = 'O' :: s) ∧
    (∀ n : Nat, n < 2 ^ 32 →
      ∃ t, buildMetaFlags [withSetFlag n] = 'F' :: t ∧ DecimalText n t) ∧
    (∀ n : Int, -2 ^ 63 ≤ n → n ≤ 2 ^ 63 - 1 →
      ∃ t, buildMetaFlags [withCompareCAS n] = 'C' :: t ∧ SignedDecimalText n t) ∧
    buildMetaFlags [withOpaque "abc123".toList] = "Oabc123".toList ∧
    buildMetaFlags [withSetFlag 42] = "F42".toList ∧
    buildMetaFlags [withSetFlag 0] = "F0".toList ∧
    buildMetaFlags [withCompareCAS (-7)] = "C-7".toList := by
  refine ⟨fun s => ?_, fun n _ => ⟨FormatUint n, ?_, FormatUint_spec n⟩,
    fun n h1 h2 => ⟨FormatInt n, ?_, FormatInt_spec n h1 h2⟩, by decide, by decide, by decide,
    by decide⟩
  · rfl
  · rfl
  · rfl

/-- C9 at `withSetFlag(4294967295)` and `withCompareCAS(-9223372036854775808)`. -/
theorem constructor_serialization_witness :
    (4294967295 < 2 ^ 32 ∧
      ∃ t, buildMetaFlags [withSetFlag 4294967295] = 'F' :: t ∧ DecimalText 4294967295 t) ∧
    ((-2 ^ 63 : Int) ≤ -9223372036854775808 ∧ (-9223372036854775808 : Int) ≤ 2 ^ 63 - 1 ∧
      ∃ t, buildMetaFlags [withCompareCAS (-9223372036854775808)] = 'C' :: t ∧
        SignedDecimalText (-9223372036854775808) t) :=
  ⟨⟨by decide, constructor_serialization.2.1 4294967295 (by decide)⟩,
   ⟨by decide, by decide, constructor_serialization.2.2.1 (-9223372036854775808) (by decide)
     (by decide)⟩⟩

/-- C10: an `h` token with at least one argument character sets `Hit` to whether the
first character `c` of the argument is `1`, without an error and whatever follows `c`:
in the loop, from any state, and for the list holding just that token. `h1` and `h10`
give true, `h0` and `hx` give false. -/
theorem hit_first_argument_char (c : Char) (rest : GoString) :
    (∀ (tail : List GoString) (mr : MetaResult) (err : Option GoError),
      obtainLoop (('h' :: c :: rest) :: tail) mr err =
        obtainLoop tail { mr with Hit := decide (c = '1') } err) ∧
    obtainMetaFlagsResults ['h' :: c :: rest] = some ({ Hit := decide (c = '1') }, none) ∧
    (∃ mr, obtainMetaFlagsResults ['h' :: c :: rest] = some (mr, none) ∧
      (mr.Hit = true ↔ c = '1')) ∧
    obtainMetaFlagsResults ["h1".toList] = some ({ Hit := true }, none) ∧
    obtainMetaFlagsResults ["h10".toList] = some ({ Hit := true }, none) ∧
    obtainMetaFlagsResults ["h0".toList] = some ({ Hit := false }, none) ∧
    obtainMetaFlagsResults ["hx".toList] = some ({ Hit := false }, none) := by
  have h1 : ∀ (tail : List GoString) (mr : MetaResult) (err : Option GoError),
      obtainLoop (('h' :: c :: rest) :: tail) mr err =
        obtainLoop tail { mr with Hit := decide (c = '1') } err :=
    fun tail mr err => obtainLoop_cons_next _ _ _ _ _ _ (obtainStep_h c rest mr err)
  have h2 : obtainMetaFlagsResults ['h' :: c :: rest] =
      some ({ Hit := decide (c = '1') }, none) := h1 [] {} none
  exact ⟨h1, h2, ⟨_, h2, by simp⟩, by decide, by decide, by decide, by decide⟩

theorem won_iff_lastWZ (ss : List GoString) (mr : MetaResult) (h : LastWins ss {} mr) :
    mr.Won = true ↔ lastWZ ss = some 'W' := by
  rw [h.1]
  cases lastWZ ss with
  | none => simp
  | some c => simp

/-- C2 (counterexample): the tokens `W`, `Z` are well formed and their keys are
distinct; the parse returns no error and the zero record, so `Won` is false although
the key `W` is present: no record is returned that holds, for every present key, the
value that key names. -/
theorem won_by_key_counterexample :
    (∀ f ∈ ["W".toList, "Z".toList], WellFormedToken f) ∧
    (["W".toList, "Z".toList].map List.head?).Nodup ∧
    obtainMetaFlagsResults ["W".toList, "Z".toList] = some ({}, none) ∧
    ¬ ∃ mr, obtainMetaFlagsResults ["W".toList, "Z".toList] = some (mr, none) ∧
        WonByKey ["W".toList, "Z".toList] mr ∧ DecodedByKey ["W".toList, "Z".toList] mr := by
  refine ⟨by decide, by decide, by decide, ?_⟩
  rintro ⟨mr, _, ⟨hW, hZ, _⟩, _⟩
  have h1 := hW [] (by decide)
  have h2 := hZ [] (by decide)
  rw [h1] at h2
  exact Bool.noConfusion h2

/-- C2 (amended): for every list of well-formed tokens with pairwise distinct keys,
`obtainMetaFlagsResults` returns no error and a record in which `Won` is true exactly
when the last of the `W`/`Z` tokens is a `W` token, and every other field named by a
present key holds the value decoded from that token's argument (`X`: `Stale` true,
`k`/`O`: the argument verbatim, `c`/`f`/`l`/`s`/`t`: the number, `h`: first character
is `1`), the fields of absent keys being zero, false or unset. -/
theorem wellFormed_distinct_keys_decoded (ss : List GoString)
    (hwf : ∀ f ∈ ss, WellFormedToken f) (hnd : (ss.map List.head?).Nodup) :
    ∃ mr, obtainMetaFlagsResults ss = some (mr, none) ∧
      (mr.Won = true ↔ lastWZ ss = some 'W') ∧ DecodedByKey ss mr := by
  obtain ⟨mr, hq, hl⟩ := obtainLoop_wellFormed ss {} hwf
  refine ⟨mr, ?_, won_iff_lastWZ ss mr hl, DecodedByKey_of_LastWins ss mr hwf hnd hl⟩
  have := hq []
  simpa [obtainMetaFlagsResults, obtainLoop] using this

/-- C2 (amended) at the tokens `O123`, `k456`, `t3600`, `s10`: the record has
`Opaque = 123`, `Key = 456`, `TTL = 3600`, `Size = 10` and nothing else set. -/
theorem wellFormed_distinct_keys_decoded_witness :
    (∀ f ∈ ["O123".toList, "k456".toList, "t3600".toList, "s10".toList],
      WellFormedToken f) ∧
    (["O123".toList, "k456".toList, "t3600".toList, "s10".toList].map List.head?).Nodup ∧
    (∃ mr, obtainMetaFlagsResults ["O123".toList, "k456".toList, "t3600".toList,
        "s10".toList] = some (mr, none) ∧
      (mr.Won = true ↔
        lastWZ ["O123".toList, "k456".toList, "t3600".toList, "s10".toList] = some 'W') ∧
      DecodedByKey ["O123".toList, "k456".toList, "t3600".toList, "s10".toList] mr) ∧
    obtainMetaFlagsResults ["O123".toList, "k456".toList, "t3600".toList, "s10".toList] =
      some ({ Opaque := "123".toList, Key := "456".toList, TTL := 3600, Size := 10 }, none) :=
  ⟨by decide, by decide,
   wellFormed_distinct_keys_decoded
     ["O123".toList, "k456".toList, "t3600".toList, "s10".toList] (by decide) (by decide),
   by decide⟩

/-- A call that returns without an error returns the last-occurrence update of the zero
record. -/
theorem LastWins_of_ok (ss : List GoString) (mr : MetaResult)
    (h : obtainMetaFlagsResults ss = some (mr, none)) : LastWins ss {} mr := by
  have hp := obtainLoop_ok_processable ss {} mr none h
  obtain ⟨mr1, err1, hq, hl⟩ := obtainLoop_run ss {} none hp
  have h1 := hq []
  rw [List.append_nil] at h1
  unfold obtainMetaFlagsResults at h
  rw [h] at h1
  simp only [obtainLoop, Option.some.injEq, Prod.mk.injEq] at h1
  rw [h1.1]
  exact hl

/-- C5: last occurrence wins. When `obtainMetaFlagsResults` returns the record `mr`
without an error, then for each key of `c`, `f`, `h`, `l`, `s`, `t` that occurs in the
list (once or several times), the field of that key holds the value decoded from the
argument `a` of the last token with that key: what `ParseInt`/`ParseUint` return for
it, which is the number `a` denotes when `a` is a valid argument (for `f` it always
is); and `Won` is true exactly when the last token among those with key `W` or `Z` has
key `W`. -/
theorem last_occurrence_wins (ss : List GoString) (mr : MetaResult)
    (h : obtainMetaFlagsResults ss = some (mr, none)) :
    (∀ a, lastArg 'c' ss = some a →
      mr.CasToken = { value := (ParseInt a 64).1, setted := true } ∧
      (∀ v, signedDecimal a = some v → -2 ^ 63 ≤ v → v ≤ 2 ^ 63 - 1 →
        mr.CasToken.value = v)) ∧
    (∀ a, lastArg 'f' ss = some a → mr.Flags = decimalValue a) ∧
    (∀ a, lastArg 'h' ss = some a → mr.Hit = decide (a.head? = some '1')) ∧
    (∀ a, lastArg 'l' ss = some a →
      mr.LastAccess = (ParseUint a 64).1 ∧ (validUint 64 a → mr.LastAccess = decimalValue a)) ∧
    (∀ a, lastArg 's' ss = some a →
      mr.Size = (ParseUint a 64).1 ∧ (validUint 64 a → mr.Size = decimalValue a)) ∧
    (∀ a, lastArg 't' ss = some a →
      mr.TTL = (ParseUint a 64).1 ∧ (validUint 64 a → mr.TTL = decimalValue a)) ∧
    (mr.Won = true ↔ lastWZ ss = some 'W') := by
  have hl := LastWins_of_ok ss mr h
  have hw := won_iff_lastWZ ss mr hl
  obtain ⟨_, _, _, _, b5, b6, b7, b8, b9, b10⟩ := hl
  have hu : ∀ (a : GoString) (x : Nat), x = (ParseUint a 64).1 →
      x = (ParseUint a 64).1 ∧ (validUint 64 a → x = decimalValue a) := by
    intro a x hx
    refine ⟨hx, fun hv => ?_⟩
    rw [hx, ParseUint_valid a 64 (le_refl _) hv]
  refine ⟨fun a ha => ?_, fun a ha => ?_, fun a ha => ?_, fun a ha => ?_, fun a ha => ?_,
    fun a ha => ?_, hw⟩
  · rw [ha] at b5
    simp only [Option.map_some', Option.getD_some] at b5
    refine ⟨b5, fun v hv h1 h2 => ?_⟩
    rcases ParseInt_spec a with ⟨v', e1, _, _, e4⟩ | ⟨hn, _⟩
    · rw [hv] at e1
      cases e1
      rw [b5, e4]
    · exfalso
      apply hn
      simp only [validInt64, hv]
      exact ⟨h1, h2⟩
  · rw [ha] at b6
    have hv : validUint 32 a :=
      (obtainLoop_ok_processable ss {} mr none h _ (lastArg_mem 'f' ss a ha)).2 rfl
    have hle : decimalValue a ≤ 2 ^ 32 - 1 := hv.2.2
    rw [b6]
    simp only [Option.map_some', Option.getD_some]
    rw [ParseUint_valid a 32 (by norm_num) hv]
    norm_num at hle ⊢
    omega
  · rw [ha] at b7; exact b7
  · rw [ha] at b8; exact hu a _ b8
  · rw [ha] at b9; exact hu a _ b9
  · rw [ha] at b10; exact hu a _ b10

/-- C5 at the tokens `t5`, `W`, `t7`, `Z`, `W`, `h0`, `h1`: the call returns no error,
`TTL` is 7, from the last `t` token, and `Won` is true, the last of `W`/`Z` being `W`. -/
theorem last_occurrence_wins_witness :
    obtainMetaFlagsResults ["t5".toList, "W".toList, "t7".toList, "Z".toList, "W".toList,
        "h0".toList, "h1".toList] = some ({ Won := true, Hit := true, TTL := 7 }, none) ∧
    lastArg 't' ["t5".toList, "W".toList, "t7".toList, "Z".toList, "W".toList,
        "h0".toList, "h1".toList] = some "7".toList ∧
    (∀ a, lastArg 't' ["t5".toList, "W".toList, "t7".toList, "Z".toList, "W".toList,
        "h0".toList, "h1".toList] = some a →
      ({ Won := true, Hit := true, TTL := 7 } : MetaResult).TTL = (ParseUint a 64).1 ∧
      (validUint 64 a →
        ({ Won := true, Hit := true, TTL := 7 } : MetaResult).TTL = decimalValue a)) ∧
    (({ Won := true, Hit := true, TTL := 7 } : MetaResult).Won = true ↔
      lastWZ ["t5".toList, "W".toList, "t7".toList, "Z".toList, "W".toList,
        "h0".toList, "h1".toList] = some 'W') :=
  ⟨by decide, by decide,
   (last_occurrence_wins _ _ (by decide)).2.2.2.2.2.1,
   (last_occurrence_wins _ _ (by decide)).2.2.2.2.2.2⟩

/-- The key of a directive holds no space: every constructor uses a one-letter key. -/
theorem Directive.key_no_space (f : metaFlag) (h : Directive f) : ' ' ∉ f.k := by
  cases h <;>
    simp [withBinary, withCAS, withFlag, withHit, withLastAccess, withOpaque, withQuiet,
      withSize, withTTL, withNoBump, withValue, withVivify, withRecache, withSetTTL,
      withCompareCAS, withSetFlag, withSetInvalid, withMode, withInitialValue, withDelta]

/-- C8: structural round trip of the builder. For every non-empty list of directives
whose arguments contain no space character, splitting the output of `buildMetaFlags`
on the space character gives exactly the list of the tokens key+argument of the
directives, in the same order, and as many of them as there are directives. -/
theorem split_build_round_trip (fs : List metaFlag) (hne : fs ≠ [])
    (hdir : ∀ f ∈ fs, Directive f) (harg : ∀ f ∈ fs, ' ' ∉ f.i) :
    (buildMetaFlags fs).splitOn ' ' = fs.map (fun f => f.k ++ f.i) ∧
    ((buildMetaFlags fs).splitOn ' ').length = fs.length := by
  have hsplit : (buildMetaFlags fs).splitOn ' ' = fs.map (fun f => f.k ++ f.i) := by
    rw [buildMetaFlags_eq]
    apply List.splitOn_intercalate
    · intro l hl
      obtain ⟨f, hf, rfl⟩ := List.mem_map.1 hl
      intro hmem
      rcases List.mem_append.1 hmem with hk | hi
      · exact Directive.key_no_space f (hdir f hf) hk
      · exact harg f hf hi
    · simpa using hne
  exact ⟨hsplit, by rw [hsplit, List.length_map]⟩

/-- C8 at `[withCAS(), withOpaque("ab"), withSetTTL(30)]`: the output `c Oab T30` splits
into the three tokens `c`, `Oab`, `T30`. -/
theorem split_build_round_trip_witness :
    [withCAS, withOpaque "ab".toList, withSetTTL 30] ≠ [] ∧
    (∀ f ∈ [withCAS, withOpaque "ab".toList, withSetTTL 30], Directive f) ∧
    (∀ f ∈ [withCAS, withOpaque "ab".toList, withSetTTL 30], ' ' ∉ f.i) ∧
    buildMetaFlags [withCAS, withOpaque "ab".toList, withSetTTL 30] = "c Oab T30".toList ∧
    ((buildMetaFlags [withCAS, withOpaque "ab".toList, withSetTTL 30]).splitOn ' ' =
        [withCAS, withOpaque "ab".toList, withSetTTL 30].map (fun f => f.k ++ f.i) ∧
      ((buildMetaFlags [withCAS, withOpaque "ab".toList, withSetTTL 30]).splitOn ' ').length =
        [withCAS, withOpaque "ab".toList, withSetTTL 30].length) := by
  have hdir : ∀ f ∈ [withCAS, withOpaque "ab".toList, withSetTTL 30], Directive f := by
    intro f hf
    simp only [List.mem_cons, List.mem_singleton, List.not_mem_nil, or_false] at hf
    rcases hf with rfl | rfl | rfl
    · exact Directive.ofCAS
    · exact Directive.ofOpaque _
    · exact Directive.ofSetTTL 30 (by decide)
  exact ⟨by decide, hdir, by decide, by decide,
    split_build_round_trip [withCAS, withOpaque "ab".toList, withSetTTL 30] (by decide) hdir
      (by decide)⟩

/-- C11 (the code at the failing input): the bare token `h` is not guarded. Parsing the
list holding just `h` gives no (record, error) pair at all: `v[0]` is evaluated on the
empty argument and the call panics; likewise when `h` stands between well-formed
tokens. With one argument character the same token is parsed without an error. -/
theorem bare_h_panics :
    obtainMetaFlagsResults ["h".toList] = none ∧
    obtainMetaFlagsResults ["W".toList, "h".toList, "t1".toList] = none ∧
    obtainMetaFlagsResults ["h0".toList] = some ({}, none) :=
  ⟨by decide, by decide, by decide⟩

/-- C17: a malformed `f` token is where the parser returns at once. When the tokens
`pre` before the first malformed `f` token are all got past (no crash, no malformed `f`
among them), the call on `pre`, the malformed token and any tokens `post` returns a
non-nil error, the one of `ParseUint`, and exactly the record accumulated from `pre`:
`Flags` is not overwritten and `post` is not processed. A well-formed `f` token sets
`Flags` to its value and leaves the pending error untouched. -/
theorem malformed_f_returns_at_once (pre post : List GoString) (a : GoString)
    (hpre : ∀ f ∈ pre, Processable f) (ha : ¬ validUint 32 a) :
    (∃ mr0 err0 e, obtainMetaFlagsResults pre = some (mr0, err0) ∧
      (ParseUint a 32).2 = some e ∧
      obtainMetaFlagsResults (pre ++ ('f' :: a) :: post) = some (mr0, some (GoError.num e))) ∧
    (∀ (b : GoString) (mr : MetaResult) (err : Option GoError), validUint 32 b →
      obtainStep ('f' :: b) mr err = .next { mr with Flags := decimalValue b } err) := by
  refine ⟨?_, fun b mr err hb => obtainStep_f_valid b mr err hb⟩
  obtain ⟨mr1, err1, hq, _⟩ := obtainLoop_run pre {} none hpre
  obtain ⟨e, he, hs⟩ := obtainStep_f_malformed a mr1 err1 ha
  refine ⟨mr1, err1, e, ?_, he, ?_⟩
  · have := hq []
    rw [List.append_nil] at this
    unfold obtainMetaFlagsResults
    rw [this]
    rfl
  · unfold obtainMetaFlagsResults
    rw [hq]
    exact obtainLoop_cons_ret _ post mr1 mr1 err1 _ hs

/-- C17 at the tokens `f7`, `t30`, `fX`, `s9`, `f8`: the call returns the record of
`f7`, `t30` (`Flags = 7`, `TTL = 30`, `Size` still 0) and the syntax error of `X`. -/
theorem malformed_f_returns_at_once_witness :
    (∀ f ∈ ["f7".toList, "t30".toList], Processable f) ∧
    ¬ validUint 32 "X".toList ∧
    (∃ mr0 err0 e, obtainMetaFlagsResults ["f7".toList, "t30".toList] = some (mr0, err0) ∧
      (ParseUint "X".toList 32).2 = some e ∧
      obtainMetaFlagsResults
          (["f7".toList, "t30".toList] ++ ('f' :: "X".toList) :: ["s9".toList, "f8".toList]) =
        some (mr0, some (GoError.num e))) ∧
    obtainMetaFlagsResults ["f7".toList, "t30".toList, "fX".toList, "s9".toList, "f8".toList] =
      some ({ Flags := 7, TTL := 30 }, some (.num (syntaxError "ParseUint" "X".toList))) :=
  ⟨by decide, by decide,
   (malformed_f_returns_at_once ["f7".toList, "t30".toList] ["s9".toList, "f8".toList]
     "X".toList (by decide) (by decide)).1,
   by decide⟩

/-- C18: index safety of the parser. When every token has at least one character and
every token with key `h` at least two, no index goes out of range and the call returns
a (record, error) pair. Conversely an empty token, or the bare token `h`, that is
reached (the tokens before it are all got past) makes the call panic, whatever
follows. -/
theorem index_safety :
    (∀ ss : List GoString, (∀ f ∈ ss, IndexSafe f) →
      ∃ mr err, obtainMetaFlagsResults ss = some (mr, err)) ∧
    (∀ (pre post : List GoString) (bad : GoString), (∀ f ∈ pre, Processable f) →
      bad = [] ∨ bad = ['h'] → obtainMetaFlagsResults (pre ++ bad :: post) = none) := by
  refine ⟨fun ss h => obtainLoop_returns ss {} none h, fun pre post bad hpre hbad => ?_⟩
  obtain ⟨mr1, err1, hq, _⟩ := obtainLoop_run pre {} none hpre
  unfold obtainMetaFlagsResults
  rw [hq]
  rcases hbad with rfl | rfl
  · exact obtainLoop_cons_panic _ post mr1 err1 (obtainStep_nil mr1 err1)
  · exact obtainLoop_cons_panic _ post mr1 err1 (obtainStep_h_nil mr1 err1)

/-- C18 at the index-safe tokens `W`, `h1`, `tx`, `Q`, which return a pair, and at the
empty token and the bare `h` after `W`, which panic. -/
theorem index_safety_witness :
    (∀ f ∈ ["W".toList, "h1".toList, "tx".toList, "Q".toList], IndexSafe f) ∧
    (∃ mr err, obtainMetaFlagsResults ["W".toList, "h1".toList, "tx".toList, "Q".toList] =
      some (mr, err)) ∧
    (∀ f ∈ ["W".toList], Processable f) ∧
    obtainMetaFlagsResults (["W".toList] ++ [] :: ["t1".toList]) = none ∧
    obtainMetaFlagsResults (["W".toList] ++ ['h'] :: ["t1".toList]) = none :=
  ⟨by decide,
   index_safety.1 ["W".toList, "h1".toList, "tx".toList, "Q".toList] (by decide),
   by decide,
   index_safety.2 ["W".toList] ["t1".toList] [] (by decide) (Or.inl rfl),
   index_safety.2 ["W".toList] ["t1".toList] ['h'] (by decide) (Or.inr rfl)⟩

/-- C13: fields decoded before a failure are kept. For every list `p` of well-formed
tokens and every final token `k`+`a` that is a malformed `c`, `l`, `s` or `t` token or
has an unrecognized key, parsing `p` followed by that token returns an error together
with a record whose fields, other than the one selected by the key `k`, are those of the
record obtained by parsing `p` alone. -/
theorem fields_kept_before_failure (p : List GoString) (k : Char) (a : GoString)
    (hp : ∀ f ∈ p, WellFormedToken f) (hb : BadToken (k :: a)) :
    ∃ mr0 mr e, obtainMetaFlagsResults p = some (mr0, none) ∧
      obtainMetaFlagsResults (p ++ [k :: a]) = some (mr, some e) ∧
      mr.Won = mr0.Won ∧ mr.Stale = mr0.Stale ∧ mr.Key = mr0.Key ∧ mr.Opaque = mr0.Opaque ∧
      (k ≠ 'c' → mr.CasToken = mr0.CasToken) ∧ mr.Flags = mr0.Flags ∧ mr.Hit = mr0.Hit ∧
      (k ≠ 'l' → mr.LastAccess = mr0.LastAccess) ∧ (k ≠ 's' → mr.Size = mr0.Size) ∧
      (k ≠ 't' → mr.TTL = mr0.TTL) := by
  obtain ⟨mr0, hq, _⟩ := obtainLoop_wellFormed p {} hp
  have h0 : obtainMetaFlagsResults p = some (mr0, none) := by
    have := hq []
    simpa [obtainMetaFlagsResults, obtainLoop] using this
  have hrun : ∀ mr1 e1, obtainStep (k :: a) mr0 none = .next mr1 e1 →
      obtainMetaFlagsResults (p ++ [k :: a]) = some (mr1, e1) := by
    intro mr1 e1 hs
    unfold obtainMetaFlagsResults
    rw [hq, obtainLoop_cons_next _ _ _ _ _ _ hs]
    rfl
  have hu : ¬ validUint 64 a → ∃ e, Option.map GoError.num (ParseUint a 64).2 = some e := by
    intro hv
    cases hpu : (ParseUint a 64).2 with
    | none => exact absurd ((ParseUint_ok_iff a 64 (le_refl _)).1 hpu) hv
    | some e => exact ⟨_, rfl⟩
  rcases hb with ⟨rfl, hv⟩ | ⟨rfl | rfl | rfl, hv⟩ | hk
  · rcases ParseInt_spec a with ⟨x, h1, h2, h3, _⟩ | ⟨_, e, he⟩
    · exact absurd (show validInt64 a by simp only [validInt64, h1]; exact ⟨h2, h3⟩) hv
    · refine ⟨mr0, _, GoError.num e, h0, hrun _ _ (by rw [obtainStep_c, he]; rfl), ?_⟩
      simp
  · obtain ⟨e, he⟩ := hu hv
    refine ⟨mr0, _, e, h0, hrun _ _ (by rw [obtainStep_l, he]), ?_⟩
    simp
  · obtain ⟨e, he⟩ := hu hv
    refine ⟨mr0, _, e, h0, hrun _ _ (by rw [obtainStep_s, he]), ?_⟩
    simp
  · obtain ⟨e, he⟩ := hu hv
    refine ⟨mr0, _, e, h0, hrun _ _ (by rw [obtainStep_t, he]), ?_⟩
    simp
  · exact ⟨mr0, mr0, invalidFlag k, h0, hrun _ _ (obtainStep_default k a mr0 none hk),
      rfl, rfl, rfl, rfl, fun _ => rfl, rfl, rfl, fun _ => rfl, fun _ => rfl, fun _ => rfl⟩

/-- C13 at the tokens `W`, `h1`, `t30`, `s120`, `f7` followed by `cXYZ`: the call fails
with `Won`, `Hit`, `TTL = 30`, `Size = 120`, `Flags = 7` in the record. -/
theorem fields_kept_before_failure_witness :
    (∀ f ∈ ["W".toList, "h1".toList, "t30".toList, "s120".toList, "f7".toList],
      WellFormedToken f) ∧
    BadToken ('c' :: "XYZ".toList) ∧
    (∃ mr0 mr e,
      obtainMetaFlagsResults ["W".toList, "h1".toList, "t30".toList, "s120".toList,
        "f7".toList] = some (mr0, none) ∧
      obtainMetaFlagsResults (["W".toList, "h1".toList, "t30".toList, "s120".toList,
        "f7".toList] ++ ['c' :: "XYZ".toList]) = some (mr, some e) ∧
      mr.Won = mr0.Won ∧ mr.Stale = mr0.Stale ∧ mr.Key = mr0.Key ∧ mr.Opaque = mr0.Opaque ∧
      ('c' ≠ 'c' → mr.CasToken = mr0.CasToken) ∧ mr.Flags = mr0.Flags ∧ mr.Hit = mr0.Hit ∧
      ('c' ≠ 'l' → mr.LastAccess = mr0.LastAccess) ∧ ('c' ≠ 's' → mr.Size = mr0.Size) ∧
      ('c' ≠ 't' → mr.TTL = mr0.TTL)) ∧
    obtainMetaFlagsResults ["W".toList, "h1".toList, "t30".toList, "s120".toList, "f7".toList,
        "cXYZ".toList] =
      some ({ Won := true, Hit := true, TTL := 30, Size := 120, Flags := 7,
              CasToken := { value := 0, setted := true } },
        some (.num (syntaxError "ParseInt" "XYZ".toList))) :=
  ⟨by decide, by decide,
   fields_kept_before_failure
     ["W".toList, "h1".toList, "t30".toList, "s120".toList, "f7".toList] 'c' "XYZ".toList
     (by decide) (by decide),
   by decide⟩

/-- C16: the exact error outcome. For every list of non-empty tokens with no
argument-less `h` token and no malformed `f` token, the call returns, and the returned
error is the outcome of the last token whose key is `c`, `l`, `s`, `t` or an unrecognized
character, and nil when there is no such token: it is non-nil exactly when that last
token has an unrecognized key or fails its numeric parse. In the loop, a token with key
`W`, `Z`, `X`, `k`, `O`, `h` or a well-formed `f` token leaves the pending error as it is,
and a well-formed `c`, `l`, `s` or `t` token replaces it by nil. -/
theorem exact_error_outcome (ss : List GoString) (h : ∀ f ∈ ss, Processable f) :
    (∃ mr err, obtainMetaFlagsResults ss = some (mr, err) ∧
      (lastErrKeyed ss = none → err = none) ∧
      (∀ f, lastErrKeyed ss = some f → err = tokenError f ∧ (err ≠ none ↔ BadToken f))) ∧
    (∀ (f : GoString) (mr : MetaResult) (err : Option GoError), Processable f →
      errKeyed f = false → ∃ mr1, obtainStep f mr err = .next mr1 err) ∧
    (∀ (f : GoString) (mr : MetaResult) (err : Option GoError), errKeyed f = true →
      ¬ BadToken f → ∃ mr1, obtainStep f mr err = .next mr1 none) := by
  refine ⟨?_, fun f mr err hp he => ?_, fun f mr err he hb => ?_⟩
  · obtain ⟨mr1, hq⟩ := obtainLoop_err ss {} none h
    refine ⟨mr1, ((lastErrKeyed ss).map tokenError).getD none, ?_, fun hn => ?_,
      fun f hf => ?_⟩
    · have := hq []
      rw [List.append_nil] at this
      unfold obtainMetaFlagsResults
      rw [this]
      rfl
    · rw [hn]; rfl
    · have hm := (lastErrKeyed_mem ss f hf).2
      rw [hf]
      exact ⟨rfl, tokenError_ne_none_iff f hm⟩
  · obtain ⟨mr1, hs⟩ := obtainStep_err f mr err hp
    rw [lastErrKeyed_single, if_neg (by simp [he])] at hs
    exact ⟨mr1, hs⟩
  · have hp : Processable f := by
      cases f with
      | nil => simp [errKeyed] at he
      | cons k v =>
        refine ⟨fun hk => ?_, fun hk => ?_⟩
        · subst hk; simp [errKeyed, knownKey] at he
        · subst hk; simp [errKeyed, knownKey] at he
    obtain ⟨mr1, hs⟩ := obtainStep_err f mr err hp
    rw [lastErrKeyed_single, if_pos he] at hs
    have hn : tokenError f = none := by
      by_contra hne
      exact hb ((tokenError_ne_none_iff f he).1 hne)
    simp only [Option.map_some', Option.getD_some, hn] at hs
    exact ⟨mr1, hs⟩

/-- C16 at the tokens `Q`, `tx`, `W`, `t1`, `h0`, `f7`: the last token that assigns the
error is the well-formed `t1`, so the call returns the nil error; with `cX` at the end
the error is the one of `cX`. -/
theorem exact_error_outcome_witness :
    (∀ f ∈ ["Q".toList, "tx".toList, "W".toList, "t1".toList, "h0".toList, "f7".toList],
      Processable f) ∧
    lastErrKeyed ["Q".toList, "tx".toList, "W".toList, "t1".toList, "h0".toList, "f7".toList] =
      some "t1".toList ∧
    (∃ mr err, obtainMetaFlagsResults
        ["Q".toList, "tx".toList, "W".toList, "t1".toList, "h0".toList, "f7".toList] =
          some (mr, err) ∧
      (lastErrKeyed ["Q".toList, "tx".toList, "W".toList, "t1".toList, "h0".toList,
        "f7".toList] = none → err = none) ∧
      (∀ f, lastErrKeyed ["Q".toList, "tx".toList, "W".toList, "t1".toList, "h0".toList,
        "f7".toList] = some f → err = tokenError f ∧ (err ≠ none ↔ BadToken f))) ∧
    obtainMetaFlagsResults
        ["Q".toList, "tx".toList, "W".toList, "t1".toList, "h0".toList, "f7".toList] =
      some ({ Won := true, TTL := 1, Flags := 7 }, none) ∧
    obtainMetaFlagsResults ["Q".toList, "t1".toList, "cX".toList, "W".toList] =
      some ({ Won := true, TTL := 1, CasToken := { value := 0, setted := true } },
        some (.num (syntaxError "ParseInt" "X".toList))) :=
  ⟨by decide, by decide,
   (exact_error_outcome
     ["Q".toList, "tx".toList, "W".toList, "t1".toList, "h0".toList, "f7".toList]
     (by decide)).1,
   by decide, by decide⟩

/-- C12: the CAS presence marker is set whenever a `c` token is processed, whether or
not its argument parses. For every token list with a `c` token that has no malformed
`f` token before it, every record the call returns has `CasToken.setted = true`; when
no further `c` token follows, the value is the one `ParseInt` returns for the argument,
which is the integer the argument denotes when it is a valid signed 64-bit decimal.
The call does return when the tokens are index-safe. `c0` gives presence with value 0,
which differs from the unset state, and `cXYZ` gives presence together with an
error. -/
theorem casToken_marker_set (pre post : List GoString) (a : GoString)
    (hpre : ∀ f ∈ pre, f.head? = some 'f' → validUint 32 f.tail) :
    (∀ mr err, obtainMetaFlagsResults (pre ++ ('c' :: a) :: post) = some (mr, err) →
      mr.CasToken.setted = true ∧
      ((∀ g ∈ post, g.head? ≠ some 'c') →
        mr.CasToken.value = (ParseInt a 64).1 ∧
        (∀ v : Int, signedDecimal a = some v → -2 ^ 63 ≤ v → v ≤ 2 ^ 63 - 1 →
          mr.CasToken.value = v))) ∧
    ((∀ f ∈ pre ++ ('c' :: a) :: post, IndexSafe f) →
      ∃ mr err, obtainMetaFlagsResults (pre ++ ('c' :: a) :: post) = some (mr, err)) ∧
    obtainMetaFlagsResults ["c0".toList] =
      some ({ CasToken := { value := 0, setted := true } }, none) ∧
    ({ CasToken := { value := 0, setted := true } } : MetaResult) ≠ {} ∧
    obtainMetaFlagsResults ["cXYZ".toList] =
      some ({ CasToken := { value := 0, setted := true } },
        some (.num (syntaxError "ParseInt" "XYZ".toList))) := by
  refine ⟨fun mr err h => ?_, fun hs => obtainLoop_returns _ {} none hs, by decide, by decide,
    by decide⟩
  unfold obtainMetaFlagsResults at h
  have hp := processable_of_returns pre (('c' :: a) :: post) {} none (mr, err) h hpre
  obtain ⟨mr1, err1, hq, _⟩ := obtainLoop_run pre {} none hp
  rw [hq, obtainLoop_cons_next _ post mr1 _ err1 _ (obtainStep_c a mr1 err1)] at h
  obtain ⟨k1, k2⟩ := obtainLoop_casToken post _ mr _ err h
  refine ⟨k1 rfl, fun hno => ?_⟩
  have hc := k2 hno
  have hval : mr.CasToken.value = (ParseInt a 64).1 := by rw [hc]
  refine ⟨hval, fun v hv h1 h2 => ?_⟩
  rcases ParseInt_spec a with ⟨v1, e1, _, _, e4⟩ | ⟨hn, _⟩
  · rw [hv] at e1
    cases e1
    rw [hval, e4]
  · exfalso
    apply hn
    simp only [validInt64, hv]
    exact ⟨h1, h2⟩

/-- C12 at the tokens `f7`, `cXYZ`, `W`, `fQ`, `c5`: the `c` token is reached, its
argument does not parse, the call returns at the malformed `fQ`, and the record has the
presence marker set. -/
theorem casToken_marker_set_witness :
    (∀ f ∈ ["f7".toList], f.head? = some 'f' → validUint 32 f.tail) ∧
    obtainMetaFlagsResults ["f7".toList, "cXYZ".toList, "W".toList, "fQ".toList, "c5".toList] =
      some ({ Flags := 7, Won := true, CasToken := { value := 0, setted := true } },
        some (.num (syntaxError "ParseUint" "Q".toList))) ∧
    ({ Flags := 7, Won := true, CasToken := { value := 0, setted := true } } :
      MetaResult).CasToken.setted = true :=
  ⟨by decide, by decide,
   ((casToken_marker_set ["f7".toList] ["W".toList, "fQ".toList, "c5".toList] "XYZ".toList
      (by decide)).1
      { Flags := 7, Won := true, CasToken := { value := 0, setted := true } }
      (some (.num (syntaxError "ParseUint" "Q".toList))) (by decide)).1⟩

/-- C14: for every list of directives produced by the constructors, the string arguments
of `withOpaque` and `withMode` holding no whitespace, the string `buildMetaFlags`
returns has no leading space, no trailing space, no two adjacent spaces and no newline
character. -/
theorem buildMetaFlags_well_spaced (fs : List metaFlag) (hdir : ∀ f ∈ fs, Directive f)
    (hstr : ∀ f ∈ fs, ∀ token, f = withOpaque token ∨ f = withMode token →
      ∀ c ∈ token, c.isWhitespace = false) :
    (buildMetaFlags fs).head? ≠ some ' ' ∧ (buildMetaFlags fs).getLast? ≠ some ' ' ∧
    ¬ ([' ', ' '] <:+: buildMetaFlags fs) ∧ '\n' ∉ buildMetaFlags fs := by
  cases fs with
  | nil =>
    have h0 : buildMetaFlags [] = [] := by decide
    rw [h0]
    refine ⟨by simp, by simp, ?_, by simp⟩
    intro hin
    have := List.IsInfix.length_le hin
    simp at this
  | cons f rest =>
    rw [buildMetaFlags_eq]
    obtain ⟨_, h2, h3, h4, h5⟩ := intercalate_clean ((f :: rest).map (fun f => f.k ++ f.i))
      (by simp) (by
        intro t ht
        obtain ⟨g, hg, rfl⟩ := List.mem_map.1 ht
        exact Directive.token_clean g (hdir g hg) (hstr g hg))
    refine ⟨h2, h3, ?_, h5⟩
    rintro ⟨s, t, hst⟩
    rw [← hst] at h4
    have hch := h4.left_of_append.right_of_append
    exact (List.chain'_cons.1 hch).1 ⟨rfl, rfl⟩

/-- C14 at `[withCAS(), withOpaque("ab"), withSetTTL(30)]`, whose output is
`c Oab T30`. -/
theorem buildMetaFlags_well_spaced_witness :
    (∀ f ∈ [withCAS, withOpaque "ab".toList, withSetTTL 30], Directive f) ∧
    (∀ f ∈ [withCAS, withOpaque "ab".toList, withSetTTL 30], ∀ token,
      f = withOpaque token ∨ f = withMode token → ∀ c ∈ token, c.isWhitespace = false) ∧
    buildMetaFlags [withCAS, withOpaque "ab".toList, withSetTTL 30] = "c Oab T30".toList ∧
    ((buildMetaFlags [withCAS, withOpaque "ab".toList, withSetTTL 30]).head? ≠ some ' ' ∧
      (buildMetaFlags [withCAS, withOpaque "ab".toList, withSetTTL 30]).getLast? ≠ some ' ' ∧
      ¬ ([' ', ' '] <:+: buildMetaFlags [withCAS, withOpaque "ab".toList, withSetTTL 30]) ∧
      '\n' ∉ buildMetaFlags [withCAS, withOpaque "ab".toList, withSetTTL 30]) := by
  have hdir : ∀ f ∈ [withCAS, withOpaque "ab".toList, withSetTTL 30], Directive f := by
    intro f hf
    simp only [List.mem_cons, List.mem_singleton, List.not_mem_nil, or_false] at hf
    rcases hf with rfl | rfl | rfl
    · exact Directive.ofCAS
    · exact Directive.ofOpaque _
    · exact Directive.ofSetTTL 30 (by decide)
  have hstr : ∀ f ∈ [withCAS, withOpaque "ab".toList, withSetTTL 30], ∀ token,
      f = withOpaque token ∨ f = withMode token → ∀ c ∈ token, c.isWhitespace = false := by
    intro f hf token ht
    simp only [List.mem_cons, List.mem_singleton, List.not_mem_nil, or_false] at hf
    rcases hf with rfl | rfl | rfl
    · rcases ht with ht | ht <;> exact absurd (congrArg metaFlag.k ht) (by simp [withCAS, withOpaque, withMode, withSetTTL])
    · rcases ht with ht | ht
      · have : token = "ab".toList := (congrArg metaFlag.i ht).symm
        subst this
        decide
      · exact absurd (congrArg metaFlag.k ht) (by simp [withCAS, withOpaque, withMode, withSetTTL])
    · rcases ht with ht | ht <;> exact absurd (congrArg metaFlag.k ht) (by simp [withCAS, withOpaque, withMode, withSetTTL])
  exact ⟨hdir, hstr, by decide,
    buildMetaFlags_well_spaced [withCAS, withOpaque "ab".toList, withSetTTL 30] hdir hstr⟩

/-- C15: decoding undoes the builder's numeric formatting. For every unsigned 64-bit `n`,
the argument text of `withSetTTL(n)`, which is also the one of `withVivify`,
`withRecache`, `withInitialValue` and `withDelta`, parsed after the key `t`, `l` or `s`
gives no error and `TTL`, `LastAccess` or `Size` equal to `n`; for every unsigned 32-bit
`n` the text of `withSetFlag(n)` after `f` gives `Flags = n`; for every signed 64-bit `n`
the text of `withCompareCAS(n)` after `c` gives the CAS value `n` with the presence marker
set, the extremes `-2^63` and `2^63 - 1` included. -/
theorem decode_undoes_format :
    (∀ n : Nat, n < 2 ^ 64 →
      obtainMetaFlagsResults ['t' :: (withSetTTL n).i] = some ({ TTL := n }, none) ∧
      obtainMetaFlagsResults ['l' :: (withSetTTL n).i] = some ({ LastAccess := n }, none) ∧
      obtainMetaFlagsResults ['s' :: (withSetTTL n).i] = some ({ Size := n }, none) ∧
      (withVivify n).i = (withSetTTL n).i ∧ (withRecache n).i = (withSetTTL n).i ∧
      (withInitialValue n).i = (withSetTTL n).i ∧ (withDelta n).i = (withSetTTL n).i) ∧
    (∀ n : Nat, n < 2 ^ 32 →
      obtainMetaFlagsResults ['f' :: (withSetFlag n).i] = some ({ Flags := n }, none)) ∧
    (∀ n : Int, -2 ^ 63 ≤ n → n ≤ 2 ^ 63 - 1 →
      obtainMetaFlagsResults ['c' :: (withCompareCAS n).i] =
        some ({ CasToken := { value := n, setted := true } }, none)) ∧
    obtainMetaFlagsResults ['c' :: (withCompareCAS (-9223372036854775808)).i] =
      some ({ CasToken := { value := -9223372036854775808, setted := true } }, none) ∧
    obtainMetaFlagsResults ['c' :: (withCompareCAS 9223372036854775807).i] =
      some ({ CasToken := { value := 9223372036854775807, setted := true } }, none) ∧
    obtainMetaFlagsResults ['t' :: (withSetTTL 18446744073709551615).i] =
      some ({ TTL := 18446744073709551615 }, none) := by
  refine ⟨fun n hn => ?_, fun n hn => ?_, fun n h1 h2 => ?_, by decide, by decide, by decide⟩
  · have hp := ParseUint_FormatUint n 64 (le_refl _) (by omega)
    refine ⟨?_, ?_, ?_, rfl, rfl, rfl, rfl⟩
    · simp only [obtainMetaFlagsResults, obtainLoop, obtainStep_t, withSetTTL, hp]
      rfl
    · simp only [obtainMetaFlagsResults, obtainLoop, obtainStep_l, withSetTTL, hp]
      rfl
    · simp only [obtainMetaFlagsResults, obtainLoop, obtainStep_s, withSetTTL, hp]
      rfl
  · have hv := (DecimalText.validUint n _ 32 (FormatUint_spec n) (by omega))
    simp only [obtainMetaFlagsResults, obtainLoop, withSetFlag,
      obtainStep_f_valid _ _ _ hv.1, hv.2]
  · have hp := ParseInt_FormatInt n h1 h2
    simp only [obtainMetaFlagsResults, obtainLoop, obtainStep_c, withCompareCAS, hp]
    rfl

/-- C15 at 4294967295 for `withSetFlag` and at 0 for `withSetTTL`. -/
theorem decode_undoes_format_witness :
    (4294967295 < 2 ^ 32 ∧
      obtainMetaFlagsResults ['f' :: (withSetFlag 4294967295).i] =
        some ({ Flags := 4294967295 }, none)) ∧
    (0 < 2 ^ 64 ∧
      obtainMetaFlagsResults ['t' :: (withSetTTL 0).i] = some ({ TTL := 0 }, none)) ∧
    ((-2 ^ 63 : Int) ≤ -1 ∧ (-1 : Int) ≤ 2 ^ 63 - 1 ∧
      obtainMetaFlagsResults ['c' :: (withCompareCAS (-1)).i] =
        some ({ CasToken := { value := -1, setted := true } }, none)) :=
  ⟨⟨by decide, decode_undoes_format.2.1 4294967295 (by decide)⟩,
   ⟨by decide, (decode_undoes_format.1 0 (by decide)).1⟩,
   ⟨by decide, by decide, decode_undoes_format.2.2.1 (-1) (by decide) (by decide)⟩⟩

end MetaFlags
